import Mathlib

/-!
# Go-Key-Value-Store: the store and the connection handler of `server/server.go`

A shallow embedding of `KVStore` (a map guarded by a lock) and of the body of
`handleConnection`, and of the reply-reading loop of `client/client.go`, followed
by theorems about the line protocol.

Modelling conventions.

* A Go `string` is a Lean `String`. Inputs are taken to be valid UTF-8 text, so a
  string is its sequence of code points; `len`, `strings.Index` and slicing, which
  Go counts in bytes, are counted in code points here. On valid UTF-8 the two
  readings select the same substrings, because a substring match always begins
  and ends on a code point boundary.
* `map[string]string` is an association list without duplicate keys
  (`AList`). The position of an entry in the list has no meaning for the
  program; the order in which `range` visits the entries is a separate
  parameter, `RangeOrder`.
* Every `fmt.Fprintln` / `fmt.Fprintf` on the connection is one element of the
  output list, the exact text written, newline included.
* The lock `mu` is not modelled: one call of a `KVStore` method is one atomic
  step on the map.
-/

namespace KV

/-! ## Library functions of package `strings` and `unicode` -/

/-- Go `unicode.IsSpace`: space, U+0009 to U+000D, U+0085, U+00A0, U+1680,
U+2000 to U+200A, U+2028, U+2029, U+202F, U+205F and U+3000. -/
def isSpace (c : Char) : Bool :=
  let n := c.toNat
  n == 32 || (9 ≤ n && n ≤ 13) || n == 0x85 || n == 0xA0 || n == 0x1680 ||
    (0x2000 ≤ n && n ≤ 0x200A) || n == 0x2028 || n == 0x2029 || n == 0x202F ||
    n == 0x205F || n == 0x3000

/-- Go `unicode.ToUpper` as far as the handler can observe it. ASCII lower-case
letters go to their capitals, U+0131 (dotless i) goes to `I` and U+017F (long s)
goes to `S`: these are the only code points outside `A`..`Z` that Go maps into
`A`..`Z`. Every other code point outside ASCII is mapped by Go to a code point
outside ASCII; since the result is only ever compared with ASCII command
names, such code points are left in place here. -/
def toUpperRune (c : Char) : Char :=
  let n := c.toNat
  if 97 ≤ n ∧ n ≤ 122 then Char.ofNat (n - 32)
  else if n = 0x131 then Char.ofNat 73
  else if n = 0x17F then Char.ofNat 83
  else c

/-- The code point level of `strings.Fields`: the maximal runs of non-blank
code points, in order. -/
def fieldsL : List Char → List (List Char)
  | [] => []
  | c :: cs =>
    if isSpace c then fieldsL cs
    else
      match cs with
      | [] => [[c]]
      | d :: _ =>
        if isSpace d then [c] :: fieldsL cs
        else
          match fieldsL cs with
          | [] => [[c]]
          | t :: ts => (c :: t) :: ts

/-- The code point level of `strings.TrimSpace`. -/
def trimSpaceL (l : List Char) : List Char :=
  (l.dropWhile isSpace).rdropWhile isSpace

/-- The code point level of `strings.Index`: the position of the first
occurrence of `sub` in `s`, or `-1`. -/
def indexL (sub : List Char) : List Char → Int
  | [] => if sub = [] then 0 else -1
  | c :: cs =>
    if sub.isPrefixOf (c :: cs) then 0
    else
      let r := indexL sub cs
      if r < 0 then -1 else r + 1

/-- Go `strings.TrimSpace`. -/
def TrimSpace (s : String) : String := ⟨trimSpaceL s.data⟩

/-- Go `strings.Fields`. -/
def Fields (s : String) : List String := (fieldsL s.data).map String.mk

/-- Go `strings.ToUpper`. -/
def ToUpper (s : String) : String := ⟨s.data.map toUpperRune⟩

/-- Go `strings.Index(s, sub)`. -/
def Index (s sub : String) : Int := indexL sub.data s.data

/-- The Go slice expression `s[n:]`. -/
def sliceFrom (s : String) (n : Nat) : String := ⟨s.data.drop n⟩

/-- The text written by `fmt.Fprintln(conn, s)`. -/
def Fprintln (s : String) : String := s ++ "\n"

/-! ## KVStore -/

/-- The field `m` of `KVStore`. -/
abbrev KVStore := AList (fun _ : String => String)

/-- One entry of the map. -/
abbrev Entry := Sigma (fun _ : String => String)

/-- The constructor `NewKVStore`: an empty map. -/
def NewKVStore : KVStore := ∅

/-- The method `KVStore.Put`: `s.m[key] = value`. -/
def KVStore.Put (s : KVStore) (key value : String) : KVStore := s.insert key value

/-- The method `KVStore.Get`: `some v` stands for `(v, true)` and `none` for
`("", false)`. -/
def KVStore.Get (s : KVStore) (key : String) : Option String := s.lookup key

/-- The method `KVStore.Delete`: the new map and the returned flag. -/
def KVStore.Delete (s : KVStore) (key : String) : KVStore × Bool :=
  if (s.lookup key).isSome then (s.erase key, true) else (s, false)

/-- The method `KVStore.List`: a copy of the map. -/
def KVStore.List (s : KVStore) : KVStore := s

/-- The order in which a `range` statement visits the entries of a map. Go
leaves it unspecified; it visits every entry once. -/
structure RangeOrder where
  /-- The visiting order chosen for a map with the given entries. -/
  iter : List Entry → List Entry
  /-- Every entry is visited exactly once. -/
  perm : ∀ l, (iter l).Perm l

/-- The visiting order that follows the association list. -/
def RangeOrder.asStored : RangeOrder := ⟨fun l => l, fun l => List.Perm.refl l⟩

/-- The visiting order that runs backwards through the association list. -/
def RangeOrder.backwards : RangeOrder := ⟨List.reverse, fun l => List.reverse_perm l⟩

/-! ## handleConnection -/

/-- Where the handler's loop stands after a line: back at `ReadString`, returned
(connection closed), or stopped by a run-time panic of an index expression. -/
inductive ConnState
  | awaiting
  | closed
  | fault
  deriving DecidableEq, Repr

/-- The effect of one iteration of the loop. -/
structure Outcome where
  /-- The map after the iteration. -/
  store : KVStore
  /-- The texts written to the connection, in order. -/
  out : List String
  /-- The loop's state after the iteration. -/
  state : ConnState
  deriving DecidableEq

/-- The text written by `fmt.Fprintf(conn, "%s=%s\n", k, v)`. -/
def entryLine (e : Entry) : String := e.1 ++ "=" ++ e.2 ++ "\n"

/-- The body of the `for` loop of `handleConnection` from line 77 on, for the
line `raw` that `ReadString` returned. `parts[0]` and `parts[1]` are read by
pattern matching; `parts[0]` on an empty `parts` is the panic `fault`. -/
def handleLine (ord : RangeOrder) (store : KVStore) (raw : String) : Outcome :=
  let line := TrimSpace raw
  if line = "" then ⟨store, [], .awaiting⟩
  else
    match Fields line with
    | [] => ⟨store, [], .fault⟩
    | p0 :: args =>
      let cmd := ToUpper p0
      if cmd = "PUT" then
        match args with
        | [] => ⟨store, [Fprintln "ERR usage: PUT <key> <value>"], .awaiting⟩
        | key :: _ =>
          let idx := Index line key
          let value := if idx ≥ 0 then TrimSpace (sliceFrom line (idx.toNat + key.length)) else ""
          ⟨store.Put key value, [Fprintln "OK"], .awaiting⟩
      else if cmd = "GET" then
        match args with
        | [key] =>
          match store.Get key with
          | some val => ⟨store, ["VALUE " ++ val ++ "\n"], .awaiting⟩
          | none => ⟨store, [Fprintln "ERR key not found"], .awaiting⟩
        | _ => ⟨store, [Fprintln "ERR usage: GET <key>"], .awaiting⟩
      else if cmd = "DELETE" then
        match args with
        | [key] =>
          let r := store.Delete key
          if r.2 then ⟨r.1, [Fprintln "OK"], .awaiting⟩
          else ⟨r.1, [Fprintln "ERR key not found"], .awaiting⟩
        | _ => ⟨store, [Fprintln "ERR usage: DELETE <key>"], .awaiting⟩
      else if cmd = "LIST" then
        let entries := store.List
        if entries.entries.length = 0 then ⟨store, [Fprintln "EMPTY"], .awaiting⟩
        else ⟨store, (ord.iter entries.entries).map entryLine ++ [Fprintln "END"], .awaiting⟩
      else if cmd = "QUIT" then ⟨store, [Fprintln "BYE"], .closed⟩
      else
        ⟨store, [Fprintln "ERR unknown command. Supported: PUT, GET, DELETE, LIST, QUIT"],
          .awaiting⟩

/-- The lines that successive calls of `r.ReadString('\n')` return without
error on the input `s`, each with its newline. Text after the last newline is
returned together with `io.EOF`, on which the handler returns; it is not in
the list. -/
def readLines : List Char → List (List Char)
  | [] => []
  | c :: cs =>
    if c.toNat = 10 then [c] :: readLines cs
    else
      match readLines cs with
      | [] => []
      | l :: ls => (c :: l) :: ls

/-- The loop of `handleConnection` over the lines read: it stops at the first
line that does not leave it awaiting the next one, and at the end of the
input, where `ReadString` reports `io.EOF`. -/
def serve (ord : RangeOrder) (store : KVStore) : List String → Outcome
  | [] => ⟨store, [], .closed⟩
  | l :: ls =>
    let r := handleLine ord store l
    match r.state with
    | .awaiting =>
      let r2 := serve ord r.store ls
      ⟨r2.store, r.out ++ r2.out, r2.state⟩
    | st => ⟨r.store, r.out, st⟩

/-- The function `handleConnection` on the whole input of a connection. -/
def handleConnection (ord : RangeOrder) (store : KVStore) (input : String) : Outcome :=
  serve ord store ((readLines input.data).map String.mk)

/-! ## Vocabulary of the protocol claims -/

/-- A key as a client can send it: a non-empty text without blanks. -/
def IsToken (k : String) : Prop := k.data ≠ [] ∧ ∀ c ∈ k.data, isSpace c = false

instance (k : String) : Decidable (IsToken k) :=
  inferInstanceAs (Decidable (k.data ≠ [] ∧ ∀ c ∈ k.data, isSpace c = false))

/-- The tokens the handler computes for a line: `strings.Fields` of the trimmed
line (`parts` in the source). -/
def partsOf (raw : String) : List String := Fields (TrimSpace raw)

/-- The command name the handler dispatches on: `strings.ToUpper(parts[0])`. -/
def cmdOf (raw : String) : Option String := (partsOf raw).head?.map ToUpper

/-- The key token of a line: `parts[1]`, when there is one. -/
def keyOf (raw : String) : Option String := (partsOf raw)[1]?

/-- The line `raw` is a PUT or a DELETE whose key token is `k`. -/
def WritesKey (raw k : String) : Prop :=
  (cmdOf raw = some "PUT" ∨ cmdOf raw = some "DELETE") ∧ keyOf raw = some k

instance (raw k : String) : Decidable (WritesKey raw k) :=
  inferInstanceAs (Decidable ((cmdOf raw = some "PUT" ∨ cmdOf raw = some "DELETE") ∧
    keyOf raw = some k))

/-- Go `strings.HasPrefix(s, p)`. -/
def HasPrefix (s p : String) : Prop := p.data <+: s.data

instance (s p : String) : Decidable (HasPrefix s p) :=
  inferInstanceAs (Decidable (p.data <+: s.data))

/-- The usage line of a command: `ERR usage: <CMD> <key>`, with ` <value>` added
for PUT. -/
def usageLine (c : String) : String :=
  "ERR usage: " ++ c ++ " <key>" ++ (if c = "PUT" then " <value>" else "")

/-- The call `r.ReadString('\n')` of `bufio.Reader` on the unread input: the text
returned, the input left unread, and whether an error (`io.EOF`) is returned.
The text runs through the first newline; when there is no newline it is all
the remaining input and the error is set. -/
def ReadString : List Char → List Char × List Char × Bool
  | [] => ([], [], true)
  | c :: cs =>
    if c.toNat = 10 then ([c], cs, false)
    else ((c :: (ReadString cs).1), (ReadString cs).2.1, (ReadString cs).2.2)

/-! ## The client: `client/client.go` -/

/-- Go `strings.TrimRight(s, cutset)`: `s` without the trailing code points that
occur in `cutset`. -/
def TrimRight (s cutset : String) : String :=
  ⟨s.data.rdropWhile (fun c => decide (c ∈ cutset.data))⟩

/-- The command name the client computes for the text it sends:
`strings.ToUpper(tokens[0])` with `tokens := strings.Fields(text)`. The value
`none` stands for the panic of `tokens[0]` on a text without a token; the text
the client sends is not blank, so it has one. -/
def clientCmd (text : String) : Option String := (Fields text).head?.map ToUpper

/-- The test `strings.ToUpper(text) == "QUIT"` after which the client returns. -/
def clientEnds (text : String) : Prop := ToUpper text = "QUIT"

instance (text : String) : Decidable (clientEnds text) :=
  inferInstanceAs (Decidable (ToUpper text = "QUIT"))

/-- What one run of the client's reply-reading loop did: the lines printed, the
lines of the server left unread, and whether the loop ended on an error of
`ReadString` (`io.EOF`) and not on its own `break`. -/
structure ReplyRead where
  /-- The lines printed, in order. -/
  printed : List String
  /-- The lines not yet read. -/
  unread : List String
  /-- The loop ended because `ReadString` returned an error. -/
  eof : Bool
  deriving DecidableEq

/-- The reply-reading loop of the client (lines 70 to 97) for the command name
`cmd`, on the lines that `serverReader.ReadString('\n')` returns one after the
other. -/
def readReply (cmd : Option String) : List String → ReplyRead
  | [] => ⟨[], [], true⟩
  | l :: ls =>
    let line := TrimRight l "\r\n"
    if cmd = some "LIST" then
      if line = "END" ∨ line = "EMPTY" then ⟨[line], ls, false⟩
      else ⟨line :: (readReply cmd ls).printed, (readReply cmd ls).unread, (readReply cmd ls).eof⟩
    else ⟨[line], ls, false⟩

/-! ## Reachable maps -/

/-- A line as `ReadString` returns it without error: it ends with the newline
and has no other newline. -/
def IsLine (raw : String) : Prop :=
  raw.data.getLast? = some (Char.ofNat 10) ∧ ∀ c ∈ raw.data.dropLast, c.toNat ≠ 10

instance (raw : String) : Decidable (IsLine raw) :=
  inferInstanceAs (Decidable (raw.data.getLast? = some (Char.ofNat 10) ∧
    ∀ c ∈ raw.data.dropLast, c.toNat ≠ 10))

/-- The maps the server can hold: the empty map of `NewKVStore`, and the map
after the handler, on any connection, has handled one more line. -/
inductive Reachable : KVStore → Prop
  | empty : Reachable NewKVStore
  | step (ord : RangeOrder) (s : KVStore) (raw : String) :
      Reachable s → IsLine raw → Reachable (handleLine ord s raw).store

/-- The text holds no newline. -/
def NoNewline (v : String) : Prop := ∀ c ∈ v.data, c.toNat ≠ 10

instance (v : String) : Decidable (NoNewline v) :=
  inferInstanceAs (Decidable (∀ c ∈ v.data, c.toNat ≠ 10))

/-- The `key=value` lines of a LIST reply: all that is written but the closing
line (`END`, or `EMPTY`). -/
def listLines (out : List String) : List String := out.dropLast

/-- The text holds no `=`. -/
def NoEqualsSign (k : String) : Prop := ∀ c ∈ k.data, c.toNat ≠ 61

instance (k : String) : Decidable (NoEqualsSign k) :=
  inferInstanceAs (Decidable (∀ c ∈ k.data, c.toNat ≠ 61))

/-- The text of a trimmed line that follows its second token: the line without
its first token, the blanks after that token, and the second token. -/
def afterKeyToken (line : String) : String :=
  ⟨((line.data.dropWhile (fun c => !isSpace c)).dropWhile isSpace).dropWhile
    (fun c => !isSpace c)⟩

/-- A text the client sends: what `strings.TrimSpace` leaves of a line typed by
the operator, when that is not empty. It is trimmed and holds no newline. -/
def IsCommandText (text : String) : Prop :=
  text ≠ "" ∧ TrimSpace text = text ∧ NoNewline text

instance (text : String) : Decidable (IsCommandText text) :=
  inferInstanceAs (Decidable (text ≠ "" ∧ TrimSpace text = text ∧ NoNewline text))

/-- The code points that arrive at the client for the texts the server wrote,
one text after the other. -/
def wireBytes (out : List String) : List Char := (out.map String.data).flatten

/-- The map after the lines `ls`, from whatever connections, have been handled
one after the other in this order. -/
def applyLines (ord : RangeOrder) (s : KVStore) (ls : List String) : KVStore :=
  ls.foldl (fun st l => (handleLine ord st l).store) s

/-! ## Lemmas on the library functions -/

theorem string_mk_eq_empty (l : List Char) : (String.mk l = "") ↔ l = [] := by
  constructor
  · intro h
    have := congrArg String.data h
    simpa using this
  · rintro rfl; rfl

theorem fieldsL_ne_nil : ∀ l : List Char, (∃ c ∈ l, isSpace c = false) → fieldsL l ≠ []
  | [], h => by simp at h
  | c :: cs, h => by
    unfold fieldsL
    cases hc : isSpace c
    · simp only [Bool.false_eq_true, if_false]
      cases cs with
      | nil => simp
      | cons d t =>
        simp only
        cases hd : isSpace d
        · simp only [Bool.false_eq_true, if_false]
          cases fieldsL (d :: t) <;> simp
        · simp
    · simp only [if_true]
      apply fieldsL_ne_nil cs
      obtain ⟨d, hd, hd2⟩ := h
      rcases List.mem_cons.mp hd with rfl | hd
      · simp [hc] at hd2
      · exact ⟨d, hd, hd2⟩

theorem fieldsL_token_sep (c : Char) (rest : List Char) (hc : isSpace c = true) :
    ∀ tok : List Char, tok ≠ [] → (∀ x ∈ tok, isSpace x = false) →
      fieldsL (tok ++ c :: rest) = tok :: fieldsL rest
  | [], h, _ => absurd rfl h
  | [a], _, h => by
    have ha : isSpace a = false := h a (by simp)
    simp [fieldsL, ha, hc]
  | a :: b :: t, _, h => by
    have ha : isSpace a = false := h a (by simp)
    have hb : isSpace b = false := h b (by simp)
    have ih := fieldsL_token_sep c rest hc (b :: t) (by simp)
      (fun x hx => h x (List.mem_cons_of_mem _ hx))
    have e : (a :: b :: t) ++ c :: rest = a :: (b :: (t ++ c :: rest)) := rfl
    rw [e, fieldsL]
    simp only [ha, hb]
    simp only [List.cons_append] at ih
    simp [ih]

theorem fieldsL_token : ∀ tok : List Char, tok ≠ [] → (∀ x ∈ tok, isSpace x = false) →
      fieldsL tok = [tok]
  | [], h, _ => absurd rfl h
  | [a], _, h => by
    have ha : isSpace a = false := h a (by simp)
    simp [fieldsL, ha]
  | a :: b :: t, _, h => by
    have ha : isSpace a = false := h a (by simp)
    have hb : isSpace b = false := h b (by simp)
    have ih := fieldsL_token (b :: t) (by simp)
      (fun x hx => h x (List.mem_cons_of_mem _ hx))
    rw [fieldsL]
    simp only [ha, hb]
    simp [ih]

/-- Trimming a line made of a command word, a key and the newline gives the line
without the newline. -/
theorem trimSpaceL_word_token_newline (a c : Char) (p k : List Char) (ha : isSpace a = false)
    (hk : k ≠ []) (hk2 : ∀ x ∈ k, isSpace x = false) (hc : isSpace c = true) :
    trimSpaceL (a :: (p ++ k) ++ [c]) = a :: (p ++ k) := by
  unfold trimSpaceL
  have h1 : List.dropWhile isSpace (a :: (p ++ k) ++ [c]) = (a :: (p ++ k)) ++ [c] := by
    simp [List.dropWhile, ha]
  rw [h1, List.rdropWhile_concat_pos _ _ _ hc, List.rdropWhile_eq_self_iff]
  intro hl
  have e : a :: (p ++ k) = (a :: p) ++ k := rfl
  have h2 : (a :: (p ++ k)).getLast hl = k.getLast hk := by
    simp only [e]
    exact List.getLast_append_of_ne_nil hk
  rw [h2]
  simp [hk2 _ (List.getLast_mem hk)]

theorem TrimSpace_GET_line (k : String) (hk : IsToken k) :
    TrimSpace ("GET " ++ k ++ "\n") = "GET " ++ k := by
  have h := trimSpaceL_word_token_newline 'G' (Char.ofNat 10) ['E', 'T', ' '] k.data (by decide)
    hk.1 hk.2 (by decide)
  have e : ("GET " ++ k ++ "\n").data = 'G' :: (['E', 'T', ' '] ++ k.data) ++ [Char.ofNat 10] := by
    rw [String.data_append, String.data_append]; rfl
  have e2 : ("GET " ++ k).data = 'G' :: (['E', 'T', ' '] ++ k.data) := by
    rw [String.data_append]; rfl
  unfold TrimSpace
  rw [e, h, ← e2]

theorem Fields_GET (k : String) (hk : IsToken k) : Fields ("GET " ++ k) = ["GET", k] := by
  have e : ("GET " ++ k).data = ['G', 'E', 'T'] ++ ' ' :: k.data := by
    rw [String.data_append]; rfl
  unfold Fields
  rw [e, fieldsL_token_sep ' ' k.data (by decide) _ (by decide) (by decide),
    fieldsL_token k.data hk.1 hk.2]
  rfl

theorem append_token_ne_empty (w k : String) (hk : IsToken k) : w ++ k ≠ "" := by
  intro h
  have := congrArg String.data h
  rw [String.data_append] at this
  have hk1 := hk.1
  simp at this
  exact hk1 this.2

/-- The handler on any line read whose trimmed text is `GET k`. -/
theorem handleLine_GET (ord : RangeOrder) (s : KVStore) (raw k : String) (hk : IsToken k)
    (hraw : TrimSpace raw = "GET " ++ k) :
    handleLine ord s raw =
      match s.Get k with
      | some val => ⟨s, ["VALUE " ++ val ++ "\n"], .awaiting⟩
      | none => ⟨s, [Fprintln "ERR key not found"], .awaiting⟩ := by
  have hne := append_token_ne_empty "GET " k hk
  have u1 : ToUpper "GET" ≠ "PUT" := by decide
  have u2 : ToUpper "GET" = "GET" := by decide
  simp only [handleLine, hraw, Fields_GET k hk, if_neg hne, if_neg u1, if_pos u2]

theorem TrimSpace_DELETE_line (k : String) (hk : IsToken k) :
    TrimSpace ("DELETE " ++ k ++ "\n") = "DELETE " ++ k := by
  have h := trimSpaceL_word_token_newline 'D' (Char.ofNat 10) ['E', 'L', 'E', 'T', 'E', ' ']
    k.data (by decide) hk.1 hk.2 (by decide)
  have e : ("DELETE " ++ k ++ "\n").data
      = 'D' :: (['E', 'L', 'E', 'T', 'E', ' '] ++ k.data) ++ [Char.ofNat 10] := by
    rw [String.data_append, String.data_append]; rfl
  have e2 : ("DELETE " ++ k).data = 'D' :: (['E', 'L', 'E', 'T', 'E', ' '] ++ k.data) := by
    rw [String.data_append]; rfl
  unfold TrimSpace
  rw [e, h, ← e2]

theorem Fields_DELETE (k : String) (hk : IsToken k) :
    Fields ("DELETE " ++ k) = ["DELETE", k] := by
  have e : ("DELETE " ++ k).data = ['D', 'E', 'L', 'E', 'T', 'E'] ++ ' ' :: k.data := by
    rw [String.data_append]; rfl
  unfold Fields
  rw [e, fieldsL_token_sep ' ' k.data (by decide) _ (by decide) (by decide),
    fieldsL_token k.data hk.1 hk.2]
  rfl

/-- The handler on any line read whose trimmed text is `DELETE k`. -/
theorem handleLine_DELETE (ord : RangeOrder) (s : KVStore) (raw k : String) (hk : IsToken k)
    (hraw : TrimSpace raw = "DELETE " ++ k) :
    handleLine ord s raw =
      if (s.Delete k).2 then ⟨(s.Delete k).1, [Fprintln "OK"], .awaiting⟩
      else ⟨(s.Delete k).1, [Fprintln "ERR key not found"], .awaiting⟩ := by
  have hne := append_token_ne_empty "DELETE " k hk
  have u1 : ToUpper "DELETE" ≠ "PUT" := by decide
  have u2 : ToUpper "DELETE" ≠ "GET" := by decide
  have u3 : ToUpper "DELETE" = "DELETE" := by decide
  simp only [handleLine, hraw, Fields_DELETE k hk, if_neg hne, if_neg u1, if_neg u2, if_pos u3]

/-- A line that is not blank has a first token, so `parts[0]` does not panic. -/
theorem partsOf_ne_nil {raw : String} (h : TrimSpace raw ≠ "") : partsOf raw ≠ [] := by
  have hne : trimSpaceL raw.data ≠ [] := fun e => h ((string_mk_eq_empty _).mpr e)
  have hlast : isSpace ((trimSpaceL raw.data).getLast hne) = false := by
    have := List.rdropWhile_last_not isSpace (raw.data.dropWhile isSpace) hne
    simpa [trimSpaceL] using this
  have hf : fieldsL (trimSpaceL raw.data) ≠ [] :=
    fieldsL_ne_nil _ ⟨_, List.getLast_mem hne, hlast⟩
  intro e
  unfold partsOf Fields TrimSpace at e
  exact hf (List.map_eq_nil_iff.mp e)

theorem TrimSpace_ne_empty_of_parts {raw : String} {p0 : String} {args : List String}
    (hF : partsOf raw = p0 :: args) : TrimSpace raw ≠ "" := by
  intro h
  have : partsOf raw = [] := by
    unfold partsOf
    rw [h]
    rfl
  rw [this] at hF
  exact List.noConfusion hF

theorem parts_of_cmd_key {raw c : String} (hc : cmdOf raw = some c) (hk : keyOf raw ≠ none) :
    ∃ p0 key rest, partsOf raw = p0 :: key :: rest ∧ ToUpper p0 = c := by
  unfold cmdOf at hc
  unfold keyOf at hk
  rcases hF : partsOf raw with _ | ⟨p0, _ | ⟨key, rest⟩⟩
  · rw [hF] at hc; simp at hc
  · rw [hF] at hk; simp at hk
  · rw [hF] at hc
    exact ⟨p0, key, rest, rfl, by simpa using hc⟩

theorem not_hasPrefix_VALUE (val : String) : ¬ HasPrefix ("VALUE " ++ val ++ "\n") "ERR" := by
  intro h
  unfold HasPrefix at h
  have e1 : ("VALUE " ++ val ++ "\n").data = 'V' :: (['A', 'L', 'U', 'E', ' '] ++ val.data
      ++ "\n".data) := by
    rw [String.data_append, String.data_append]; rfl
  have e2 : ("ERR" : String).data = 'E' :: ['R', 'R'] := rfl
  rw [e1, e2, List.cons_prefix_cons] at h
  exact absurd h.1 (by decide)

theorem not_hasPrefix_usage_of_ERR {w : String} (h : ¬ HasPrefix w "ERR") :
    ¬ HasPrefix w "ERR usage" := by
  intro hu
  apply h
  unfold HasPrefix at hu ⊢
  have e : ("ERR usage" : String).data = ("ERR" : String).data ++ (" usage" : String).data := rfl
  rw [e] at hu
  exact (List.prefix_append _ _).trans hu

/-! ## `strings.Index` on a line that begins with a word -/

theorem trimSpaceL_concat_space (l : List Char) (c : Char) (hl : l ≠ [])
    (hh : isSpace (l.head hl) = false) (ht : isSpace (l.getLast hl) = false)
    (hc : isSpace c = true) : trimSpaceL (l ++ [c]) = l := by
  unfold trimSpaceL
  obtain ⟨a, t, rfl⟩ := List.exists_cons_of_ne_nil hl
  have ha : isSpace a = false := hh
  have h1 : List.dropWhile isSpace (a :: t ++ [c]) = (a :: t) ++ [c] := by
    simp [List.dropWhile, ha]
  rw [h1, List.rdropWhile_concat_pos _ _ _ hc, List.rdropWhile_eq_self_iff]
  intro _
  simp [ht]

theorem trimSpaceL_cons_space (c : Char) (l : List Char) (hc : isSpace c = true) :
    trimSpaceL (c :: l) = trimSpaceL l := by
  simp [trimSpaceL, List.dropWhile, hc]

theorem ends_of_trimSpaceL_eq_self (l : List Char) (hl : l ≠ []) (h : trimSpaceL l = l) :
    isSpace (l.head hl) = false ∧ isSpace (l.getLast hl) = false := by
  unfold trimSpaceL at h
  have hd : l.dropWhile isSpace = l := by
    have h1 : (l.dropWhile isSpace).rdropWhile isSpace <+: l.dropWhile isSpace :=
      List.rdropWhile_prefix _ _
    have h2 : l.dropWhile isSpace <:+ l := List.dropWhile_suffix _
    rw [h] at h1
    exact h2.eq_of_length_le h1.length_le
  constructor
  · have := (List.dropWhile_eq_self_iff (p := isSpace) (l := l)).mp hd (List.length_pos.mpr hl)
    obtain ⟨a, t, rfl⟩ := List.exists_cons_of_ne_nil hl
    simpa using this
  · rw [hd] at h
    have := (List.rdropWhile_eq_self_iff (p := isSpace) (l := l)).mp h hl
    simpa using this

theorem indexL_of_isPrefixOf (sub l : List Char) (h : sub.isPrefixOf l = true) :
    indexL sub l = 0 := by
  cases l with
  | nil =>
    cases sub with
    | nil => rfl
    | cons a t => simp [List.isPrefixOf] at h
  | cons c cs => simp [indexL, h]

theorem indexL_cons_of_not_isPrefixOf (sub : List Char) (c : Char) (cs : List Char)
    (h : sub.isPrefixOf (c :: cs) = false) (hr : 0 ≤ indexL sub cs) :
    indexL sub (c :: cs) = indexL sub cs + 1 := by
  have : ¬ indexL sub cs < 0 := not_lt.mpr hr
  simp [indexL, h, this]

theorem not_isPrefixOf_word_space (c : Char) (hc : isSpace c = true) (rest : List Char) :
    ∀ (w k : List Char), k ≠ [] → (∀ x ∈ k, isSpace x = false) → ¬ k <+: w →
      k.isPrefixOf (w ++ c :: rest) = false
  | _, [], hne, _, _ => absurd rfl hne
  | [], a :: t, _, hk, _ => by
    have ha : isSpace a = false := hk a (by simp)
    have : a ≠ c := by rintro rfl; rw [hc] at ha; exact Bool.noConfusion ha
    simp [List.isPrefixOf, this]
  | x :: w, a :: t, _, hk, hp => by
    by_cases hax : a = x
    · subst hax
      have hp2 : ¬ t <+: w := fun h => hp ((List.cons_prefix_cons).mpr ⟨rfl, h⟩)
      have ht : t ≠ [] := by
        rintro rfl
        exact hp2 (List.nil_prefix)
      have ih := not_isPrefixOf_word_space c hc rest w t ht
        (fun y hy => hk y (List.mem_cons_of_mem _ hy)) hp2
      simp [List.isPrefixOf, ih]
    · simp [List.isPrefixOf, hax]

theorem indexL_after_word (c : Char) (hc : isSpace c = true) (k rest : List Char) (hne : k ≠ [])
    (hk : ∀ x ∈ k, isSpace x = false) :
    ∀ w : List Char, ¬ k <:+: w → indexL k (w ++ c :: (k ++ rest)) = w.length + 1
  | [], hw => by
    have h0 := not_isPrefixOf_word_space c hc (k ++ rest) [] k hne hk
      (fun h => hw h.isInfix)
    have h1 : indexL k (k ++ rest) = 0 :=
      indexL_of_isPrefixOf k _ (List.isPrefixOf_iff_prefix.mpr (List.prefix_append k rest))
    have := indexL_cons_of_not_isPrefixOf k c (k ++ rest) h0 (by rw [h1])
    simpa [h1] using this
  | x :: w, hw => by
    have hw2 : ¬ k <:+: w := fun h => hw (List.infix_cons h)
    have ih := indexL_after_word c hc k rest hne hk w hw2
    have h0 := not_isPrefixOf_word_space c hc (k ++ rest) (x :: w) k hne hk
      (fun h => hw h.isInfix)
    have := indexL_cons_of_not_isPrefixOf k x (w ++ c :: (k ++ rest)) h0 (by rw [ih]; omega)
    rw [List.cons_append, this, ih]
    simp

/-! ## The shape of one iteration -/

/-- A PUT line with a key token: the map gets the key with the text after the
first occurrence of the key in the trimmed line, and `OK` is written. -/
theorem handleLine_PUT {raw p0 key : String} {rest : List String}
    (hF : partsOf raw = p0 :: key :: rest) (hP : ToUpper p0 = "PUT")
    (ord : RangeOrder) (s : KVStore) :
    handleLine ord s raw =
      ⟨s.Put key
          (if Index (TrimSpace raw) key ≥ 0 then
            TrimSpace (sliceFrom (TrimSpace raw) ((Index (TrimSpace raw) key).toNat + key.length))
          else ""),
        [Fprintln "OK"], .awaiting⟩ := by
  have h0 := TrimSpace_ne_empty_of_parts hF
  unfold partsOf at hF
  simp only [handleLine, h0, hF, hP, if_true, if_false]

/-- The three ways an iteration can leave the map: untouched, after a `Put` of a
PUT line, after a successful `Delete` of a DELETE line. -/
theorem handleLine_store_cases (ord : RangeOrder) (s : KVStore) (raw : String) :
    (handleLine ord s raw).store = s ∨
    (∃ p0 key rest value, partsOf raw = p0 :: key :: rest ∧ ToUpper p0 = "PUT" ∧
      handleLine ord s raw = ⟨s.Put key value, [Fprintln "OK"], .awaiting⟩) ∨
    (∃ p0 key, partsOf raw = [p0, key] ∧ ToUpper p0 = "DELETE" ∧
      (s.Get key).isSome = true ∧
      handleLine ord s raw = ⟨s.erase key, [Fprintln "OK"], .awaiting⟩) := by
  by_cases h0 : TrimSpace raw = ""
  · left; simp [handleLine, h0]
  · cases hF : partsOf raw with
    | nil => exact absurd hF (partsOf_ne_nil h0)
    | cons p0 args =>
      have hF2 : Fields (TrimSpace raw) = p0 :: args := hF
      by_cases hP : ToUpper p0 = "PUT"
      · cases args with
        | nil => left; simp [handleLine, h0, hF2, hP]
        | cons key rest => exact Or.inr (Or.inl ⟨p0, key, rest, _, rfl, hP, handleLine_PUT hF hP ord s⟩)
      · by_cases hG : ToUpper p0 = "GET"
        · left
          simp only [handleLine, h0, hF2, if_false, if_neg hP, if_pos hG]
          rcases args with _ | ⟨key, _ | ⟨k2, rest⟩⟩
          · rfl
          · simp only; cases s.Get key <;> rfl
          · rfl
        · by_cases hD : ToUpper p0 = "DELETE"
          · rcases args with _ | ⟨key, _ | ⟨k2, rest⟩⟩
            · left; simp only [handleLine, h0, hF2, if_false, if_neg hP, if_neg hG, if_pos hD]
            · cases hL : (s.Get key).isSome
              · left
                have : (s.lookup key).isSome = false := hL
                simp [handleLine, h0, hF2, hP, hG, hD, KVStore.Delete, this]
              · right; right
                have : (s.lookup key).isSome = true := hL
                refine ⟨p0, key, rfl, hD, hL, ?_⟩
                simp [handleLine, h0, hF2, hP, hG, hD, KVStore.Delete, this]
            · left; simp only [handleLine, h0, hF2, if_false, if_neg hP, if_neg hG, if_pos hD]
          · left
            simp only [handleLine, h0, hF2, if_false, if_neg hP, if_neg hG, if_neg hD]
            split
            · split <;> rfl
            · split <;> rfl

theorem handleLine_store_eq_or_ok (ord : RangeOrder) (s : KVStore) (raw : String) :
    (handleLine ord s raw).store = s ∨ (handleLine ord s raw).out = [Fprintln "OK"] := by
  rcases handleLine_store_cases ord s raw with h | ⟨p0, key, rest, value, _, _, h⟩ |
    ⟨p0, key, _, _, _, h⟩
  · exact Or.inl h
  · exact Or.inr (by rw [h])
  · exact Or.inr (by rw [h])

/-- A line that is not a PUT or DELETE of `k` leaves the entry of `k` alone. -/
theorem Get_frame (ord : RangeOrder) (s : KVStore) (k raw : String) (h : ¬ WritesKey raw k) :
    (handleLine ord s raw).store.Get k = s.Get k := by
  rcases handleLine_store_cases ord s raw with h1 | ⟨p0, key, rest, value, hF, hP, h1⟩ |
    ⟨p0, key, hF, hD, _, h1⟩
  · rw [h1]
  · have hk : k ≠ key := by
      rintro rfl
      exact h ⟨Or.inl (by simp [cmdOf, hF, hP]), by simp [keyOf, hF]⟩
    rw [h1]
    exact AList.lookup_insert_ne hk
  · have hk : k ≠ key := by
      rintro rfl
      exact h ⟨Or.inr (by simp [cmdOf, hF, hD]), by simp [keyOf, hF]⟩
    rw [h1]
    exact AList.lookup_erase_ne hk

/-- The same along the lines of a connection. -/
theorem Get_frame_serve (ord : RangeOrder) (k : String) :
    ∀ (ls : List String) (s : KVStore), (∀ l ∈ ls, ¬ WritesKey l k) →
      (serve ord s ls).store.Get k = s.Get k
  | [], _, _ => rfl
  | l :: ls, s, h => by
    have h1 := Get_frame ord s k l (h l (List.mem_cons_self _ _))
    have ih := Get_frame_serve ord k ls (handleLine ord s l).store
      (fun x hx => h x (List.mem_cons_of_mem _ hx))
    cases hst : (handleLine ord s l).state
    · simp only [serve, hst]
      rw [ih, h1]
    · simp only [serve, hst]
      exact h1
    · simp only [serve, hst]
      exact h1

/-! ## PUT then GET -/

/-- C1, evaluated where it fails: the key `P` is a non-empty token and the value `1`
has no blank at either end, the line `PUT P 1` is answered `OK`, and yet the
following line `GET P` is answered `VALUE UT P 1`, not `VALUE 1`: `strings.Index`
finds the key inside the command word. -/
theorem put_get_key_inside_command_word :
    IsToken "P" ∧ TrimSpace "1" = "1" ∧
      ∀ ord : RangeOrder,
        (handleLine ord NewKVStore "PUT P 1\n").out = [Fprintln "OK"] ∧
        (handleLine ord (handleLine ord NewKVStore "PUT P 1\n").store "GET P\n").out
          = [Fprintln "VALUE UT P 1"] ∧
        (handleLine ord (handleLine ord NewKVStore "PUT P 1\n").store "GET P\n").out
          ≠ [Fprintln "VALUE 1"] :=
  ⟨by decide, by decide, fun _ => ⟨by rfl, by rfl,
    fun h => absurd ((show [Fprintln "VALUE UT P 1"] = _ from by rfl).trans h) (by decide)⟩⟩

/-- The round trip for every key that does not occur inside the command word:
the line `PUT k v` stores `v` under `k` and is answered `OK`, and the line
`GET k` is then answered `VALUE v`. -/
theorem put_then_get_outside_command_word (ord : RangeOrder) (s : KVStore) (k v : String)
    (hk : IsToken k) (hkw : ¬ k.data <:+: "PUT".data) (hv : v ≠ "") (hv2 : TrimSpace v = v) :
    handleLine ord s ("PUT " ++ k ++ " " ++ v ++ "\n") = ⟨s.Put k v, [Fprintln "OK"], .awaiting⟩ ∧
    (handleLine ord (handleLine ord s ("PUT " ++ k ++ " " ++ v ++ "\n")).store
        ("GET " ++ k ++ "\n")).out = ["VALUE " ++ v ++ "\n"] := by
  have hvne : v.data ≠ [] := fun h => hv (String.ext h)
  have hvt : trimSpaceL v.data = v.data := congrArg String.data hv2
  obtain ⟨_, hvlast⟩ := ends_of_trimSpaceL_eq_self v.data hvne hvt
  have eL : ("PUT " ++ k ++ " " ++ v).data = ['P', 'U', 'T'] ++ ' ' :: (k.data ++ ' ' :: v.data) := by
    simp only [String.data_append]
    simp
  have hT : TrimSpace ("PUT " ++ k ++ " " ++ v ++ "\n") = "PUT " ++ k ++ " " ++ v := by
    have e : ("PUT " ++ k ++ " " ++ v ++ "\n").data
        = ("PUT " ++ k ++ " " ++ v).data ++ [Char.ofNat 10] := by
      rw [String.data_append]
    have hne : ("PUT " ++ k ++ " " ++ v).data ≠ [] := by rw [eL]; simp
    have hlast : isSpace (("PUT " ++ k ++ " " ++ v).data.getLast hne) = false := by
      have : ("PUT " ++ k ++ " " ++ v).data.getLast hne = v.data.getLast hvne := by
        simp only [String.data_append]
        exact List.getLast_append_of_ne_nil hvne
      rw [this]; exact hvlast
    have hhead : isSpace (("PUT " ++ k ++ " " ++ v).data.head hne) = false := by
      have : ("PUT " ++ k ++ " " ++ v).data.head hne = 'P' := by
        simp only [eL]; rfl
      rw [this]; decide
    unfold TrimSpace
    rw [e, trimSpaceL_concat_space _ _ hne hhead hlast (by decide)]
  have hF : partsOf ("PUT " ++ k ++ " " ++ v ++ "\n")
      = "PUT" :: k :: (fieldsL v.data).map String.mk := by
    unfold partsOf Fields
    rw [hT, eL, fieldsL_token_sep ' ' _ (by decide) _ (by decide) (by decide),
      fieldsL_token_sep ' ' _ (by decide) _ hk.1 hk.2]
    rfl
  have hI : Index ("PUT " ++ k ++ " " ++ v) k = 4 := by
    unfold Index
    rw [eL, indexL_after_word ' ' (by decide) k.data _ hk.1 hk.2 _ hkw]
    rfl
  have hS : TrimSpace (sliceFrom ("PUT " ++ k ++ " " ++ v) (4 + k.length)) = v := by
    unfold TrimSpace sliceFrom
    have : List.drop (4 + k.length) ("PUT " ++ k ++ " " ++ v).data = ' ' :: v.data := by
      rw [eL]
      have : ['P', 'U', 'T'] ++ ' ' :: (k.data ++ ' ' :: v.data)
          = (['P', 'U', 'T', ' '] ++ k.data) ++ ' ' :: v.data := by simp
      have hlen : (['P', 'U', 'T', ' '] ++ k.data).length = 4 + k.length := by
        rw [List.length_append]; rfl
      rw [this, List.drop_left' hlen]
    simp only [this]
    rw [trimSpaceL_cons_space _ _ (by decide), hvt]
  have h1 : handleLine ord s ("PUT " ++ k ++ " " ++ v ++ "\n")
      = ⟨s.Put k v, [Fprintln "OK"], .awaiting⟩ := by
    rw [handleLine_PUT hF (by decide) ord s, hT, hI]
    have h4 : (4 : Int).toNat = 4 := rfl
    rw [if_pos (by decide), h4, hS]
  refine ⟨h1, ?_⟩
  rw [h1, handleLine_GET ord _ _ k hk (TrimSpace_GET_line k hk)]
  have : KVStore.Get (s.Put k v) k = some v := AList.lookup_insert s
  rw [this]

/-- The round trip at a concrete input: key `a`, value `1 2`. -/
theorem put_then_get_outside_command_word_witness :
    IsToken "a" ∧ ¬ "a".data <:+: "PUT".data ∧ ("1 2" : String) ≠ "" ∧ TrimSpace "1 2" = "1 2" ∧
    handleLine RangeOrder.asStored NewKVStore ("PUT " ++ "a" ++ " " ++ "1 2" ++ "\n")
      = ⟨NewKVStore.Put "a" "1 2", [Fprintln "OK"], .awaiting⟩ ∧
    (handleLine RangeOrder.asStored
        (handleLine RangeOrder.asStored NewKVStore ("PUT " ++ "a" ++ " " ++ "1 2" ++ "\n")).store
        ("GET " ++ "a" ++ "\n")).out = ["VALUE " ++ "1 2" ++ "\n"] :=
  ⟨by decide, by decide, by decide, by decide,
    put_then_get_outside_command_word RangeOrder.asStored NewKVStore "a" "1 2" (by decide)
      (by decide) (by decide) (by decide)⟩

/-! ## Frame property of GET -/

/-- C2: a line that is not a PUT or DELETE with key token `k` leaves the entry of
`k` as it was, so the line `GET k` is answered the same before and after it; the
same holds after any sequence of such lines on a connection. -/
theorem get_reply_unchanged_by_other_lines (ord : RangeOrder) (s : KVStore) (k raw : String)
    (ls : List String) (hk : IsToken k) (h : ¬ WritesKey raw k)
    (hls : ∀ l ∈ ls, ¬ WritesKey l k) :
    (handleLine ord s raw).store.Get k = s.Get k ∧
    (handleLine ord (handleLine ord s raw).store ("GET " ++ k ++ "\n")).out
      = (handleLine ord s ("GET " ++ k ++ "\n")).out ∧
    (handleLine ord (serve ord s ls).store ("GET " ++ k ++ "\n")).out
      = (handleLine ord s ("GET " ++ k ++ "\n")).out := by
  have hg := Get_frame ord s k raw h
  have hs := Get_frame_serve ord k ls s hls
  have ht := TrimSpace_GET_line k hk
  refine ⟨hg, ?_, ?_⟩
  · rw [handleLine_GET ord _ _ k hk ht, handleLine_GET ord s _ k hk ht, hg]
    cases s.Get k <;> rfl
  · rw [handleLine_GET ord _ _ k hk ht, handleLine_GET ord s _ k hk ht, hs]
    cases s.Get k <;> rfl

/-- C2 at a concrete input: the entry of `a` across `PUT b 2` and across a
sequence of other lines. -/
theorem get_reply_unchanged_by_other_lines_witness :
    IsToken "a" ∧ ¬ WritesKey "PUT b 2\n" "a" ∧
    (∀ l ∈ ["PUT b 2\n", "DELETE c\n", "PUT\n", "LIST\n", "FOO a\n", "GET a\n"],
      ¬ WritesKey l "a") ∧
    (handleLine RangeOrder.asStored (NewKVStore.Put "a" "1") "PUT b 2\n").store.Get "a"
      = (NewKVStore.Put "a" "1").Get "a" ∧
    (handleLine RangeOrder.asStored
        (handleLine RangeOrder.asStored (NewKVStore.Put "a" "1") "PUT b 2\n").store
        ("GET " ++ "a" ++ "\n")).out
      = (handleLine RangeOrder.asStored (NewKVStore.Put "a" "1") ("GET " ++ "a" ++ "\n")).out ∧
    (handleLine RangeOrder.asStored
        (serve RangeOrder.asStored (NewKVStore.Put "a" "1")
          ["PUT b 2\n", "DELETE c\n", "PUT\n", "LIST\n", "FOO a\n", "GET a\n"]).store
        ("GET " ++ "a" ++ "\n")).out
      = (handleLine RangeOrder.asStored (NewKVStore.Put "a" "1") ("GET " ++ "a" ++ "\n")).out :=
  ⟨by decide, by decide, by decide,
    get_reply_unchanged_by_other_lines RangeOrder.asStored (NewKVStore.Put "a" "1") "a"
      "PUT b 2\n" ["PUT b 2\n", "DELETE c\n", "PUT\n", "LIST\n", "FOO a\n", "GET a\n"]
      (by decide) (by decide) (by decide)⟩

/-! ## DELETE -/

/-- C3: the line `DELETE k` for a key that is not in the map is answered
`ERR key not found`, `Delete` returns false, and the map is the same. -/
theorem delete_absent_key (ord : RangeOrder) (s : KVStore) (k : String) (hk : IsToken k)
    (habs : s.Get k = none) :
    s.Delete k = (s, false) ∧
      handleLine ord s ("DELETE " ++ k ++ "\n")
        = ⟨s, [Fprintln "ERR key not found"], .awaiting⟩ := by
  have hd : s.Delete k = (s, false) := by
    have : s.lookup k = none := habs
    simp [KVStore.Delete, this]
  refine ⟨hd, ?_⟩
  rw [handleLine_DELETE ord s _ k hk (TrimSpace_DELETE_line k hk), hd]
  rfl

/-- C3 at a concrete input: `DELETE b` on the map that holds only `a`. -/
theorem delete_absent_key_witness :
    IsToken "b" ∧ (NewKVStore.Put "a" "1").Get "b" = none ∧
    (NewKVStore.Put "a" "1").Delete "b" = (NewKVStore.Put "a" "1", false) ∧
      handleLine RangeOrder.asStored (NewKVStore.Put "a" "1") ("DELETE " ++ "b" ++ "\n")
        = ⟨NewKVStore.Put "a" "1", [Fprintln "ERR key not found"], .awaiting⟩ :=
  ⟨by decide, by decide,
    delete_absent_key RangeOrder.asStored (NewKVStore.Put "a" "1") "b" (by decide) (by decide)⟩

/-- C4: the line `DELETE k` for a key that is in the map is answered `OK`;
afterwards `k` has no entry and every other key has the entry it had; a second
`DELETE k` is answered `ERR key not found` and changes nothing. -/
theorem delete_present_key (ord : RangeOrder) (s : KVStore) (k v : String) (hk : IsToken k)
    (hp : s.Get k = some v) :
    (handleLine ord s ("DELETE " ++ k ++ "\n")).out = [Fprintln "OK"] ∧
    (handleLine ord s ("DELETE " ++ k ++ "\n")).state = .awaiting ∧
    (handleLine ord s ("DELETE " ++ k ++ "\n")).store.Get k = none ∧
    (∀ k2, k2 ≠ k → (handleLine ord s ("DELETE " ++ k ++ "\n")).store.Get k2 = s.Get k2) ∧
    handleLine ord (handleLine ord s ("DELETE " ++ k ++ "\n")).store ("DELETE " ++ k ++ "\n")
      = ⟨(handleLine ord s ("DELETE " ++ k ++ "\n")).store, [Fprintln "ERR key not found"],
          .awaiting⟩ := by
  have ht := TrimSpace_DELETE_line k hk
  have hd : s.Delete k = (s.erase k, true) := by
    have : s.lookup k = some v := hp
    simp [KVStore.Delete, this]
  have h1 : handleLine ord s ("DELETE " ++ k ++ "\n")
      = ⟨s.erase k, [Fprintln "OK"], .awaiting⟩ := by
    rw [handleLine_DELETE ord s _ k hk ht, hd]
    rfl
  have hnone : KVStore.Get (s.erase k) k = none := AList.lookup_erase k s
  have hd2 : KVStore.Delete (s.erase k) k = (s.erase k, false) := by
    have : (s.erase k).lookup k = none := hnone
    simp [KVStore.Delete, this]
  rw [h1]
  refine ⟨rfl, rfl, hnone, fun k2 hk2 => AList.lookup_erase_ne hk2, ?_⟩
  rw [handleLine_DELETE ord _ _ k hk ht, hd2]
  rfl

/-- C4 at a concrete input: `DELETE a` on the map that holds `a` and `b`. -/
theorem delete_present_key_witness :
    IsToken "a" ∧ ((NewKVStore.Put "a" "1").Put "b" "2").Get "a" = some "1" ∧
    (handleLine RangeOrder.asStored ((NewKVStore.Put "a" "1").Put "b" "2")
        ("DELETE " ++ "a" ++ "\n")).out = [Fprintln "OK"] ∧
    (handleLine RangeOrder.asStored ((NewKVStore.Put "a" "1").Put "b" "2")
        ("DELETE " ++ "a" ++ "\n")).store.Get "a" = none ∧
    (handleLine RangeOrder.asStored ((NewKVStore.Put "a" "1").Put "b" "2")
        ("DELETE " ++ "a" ++ "\n")).store.Get "b" = some "2" :=
  have h := delete_present_key RangeOrder.asStored ((NewKVStore.Put "a" "1").Put "b" "2")
    "a" "1" (by decide) (by decide)
  ⟨by decide, by decide, h.1, h.2.2.1, (h.2.2.2.1 "b" (by decide)).trans (by decide)⟩

/-! ## LIST -/

/-- C5: the line `LIST` leaves the map and the connection as they are. On the
empty map it writes the one line `EMPTY`. Otherwise it writes one `key=value`
line for every entry, each entry once, in the order `range` visits them, and
then `END`; the number of `key=value` lines is the number of entries. -/
theorem list_reply (ord : RangeOrder) (s : KVStore) :
    (handleLine ord s "LIST\n").store = s ∧
    (handleLine ord s "LIST\n").state = .awaiting ∧
    (s.entries = [] → (handleLine ord s "LIST\n").out = [Fprintln "EMPTY"]) ∧
    (s.entries ≠ [] →
      ∃ l : List Entry, l.Perm s.entries ∧ l.Nodup ∧ l.length = s.entries.length ∧
        (handleLine ord s "LIST\n").out = l.map entryLine ++ [Fprintln "END"]) := by
  have hT : TrimSpace "LIST\n" = "LIST" := by decide
  have hF : Fields "LIST" = ["LIST"] := by decide
  have hne : ("LIST" : String) ≠ "" := by decide
  have u1 : ToUpper "LIST" ≠ "PUT" := by decide
  have u2 : ToUpper "LIST" ≠ "GET" := by decide
  have u3 : ToUpper "LIST" ≠ "DELETE" := by decide
  have u4 : ToUpper "LIST" = "LIST" := by decide
  have e : handleLine ord s "LIST\n" =
      if s.entries.length = 0 then ⟨s, [Fprintln "EMPTY"], .awaiting⟩
      else ⟨s, (ord.iter s.entries).map entryLine ++ [Fprintln "END"], .awaiting⟩ := by
    simp only [handleLine, hT, hF, if_neg hne, if_neg u1, if_neg u2, if_neg u3, if_pos u4,
      KVStore.List]
  rw [e]
  by_cases h0 : s.entries = []
  · have hl : s.entries.length = 0 := by rw [h0]; rfl
    rw [if_pos hl]
    exact ⟨rfl, rfl, fun _ => rfl, fun h => absurd h0 h⟩
  · have hl : ¬ s.entries.length = 0 := fun h => h0 (List.length_eq_zero.mp h)
    rw [if_neg hl]
    refine ⟨rfl, rfl, fun h => absurd h h0, fun _ => ⟨ord.iter s.entries, ord.perm _, ?_, ?_, rfl⟩⟩
    · exact (ord.perm s.entries).nodup_iff.mpr s.nodupKeys.nodup
    · exact (ord.perm s.entries).length_eq

/-- C5 at concrete inputs: the empty map, and the map that holds `a` and `b`. -/
theorem list_reply_witness :
    ((NewKVStore).entries = [] ∧
      (handleLine RangeOrder.backwards NewKVStore "LIST\n").out = [Fprintln "EMPTY"]) ∧
    (((NewKVStore.Put "a" "1").Put "b" "2").entries ≠ [] ∧
      ∃ l : List Entry, l.Perm ((NewKVStore.Put "a" "1").Put "b" "2").entries ∧ l.Nodup ∧
        l.length = ((NewKVStore.Put "a" "1").Put "b" "2").entries.length ∧
        (handleLine RangeOrder.backwards ((NewKVStore.Put "a" "1").Put "b" "2") "LIST\n").out
          = l.map entryLine ++ [Fprintln "END"]) :=
  ⟨⟨by decide, (list_reply RangeOrder.backwards NewKVStore).2.2.1 (by decide)⟩,
    ⟨by decide,
      (list_reply RangeOrder.backwards ((NewKVStore.Put "a" "1").Put "b" "2")).2.2.2
        (by decide)⟩⟩

/-! ## PUT twice -/

/-- C6: a PUT line with a key token, handled twice in a row, leaves the map that
handling it once leaves; both times the answer is `OK`, and every later line is
handled alike after one or two copies of the line. -/
theorem put_twice_same_store (ord : RangeOrder) (s : KVStore) (raw : String)
    (hc : cmdOf raw = some "PUT") (hk : keyOf raw ≠ none) :
    (handleLine ord (handleLine ord s raw).store raw).store = (handleLine ord s raw).store ∧
    (handleLine ord s raw).out = [Fprintln "OK"] ∧
    (handleLine ord (handleLine ord s raw).store raw).out = [Fprintln "OK"] ∧
    ∀ (ord2 : RangeOrder) (next : String),
      handleLine ord2 (handleLine ord (handleLine ord s raw).store raw).store next
        = handleLine ord2 (handleLine ord s raw).store next := by
  obtain ⟨p0, key, rest, hF, hP⟩ := parts_of_cmd_key hc hk
  have h1 := handleLine_PUT hF hP ord s
  have hst : (handleLine ord (handleLine ord s raw).store raw).store
      = (handleLine ord s raw).store := by
    rw [handleLine_PUT hF hP ord (handleLine ord s raw).store, h1]
    exact AList.insert_insert s
  refine ⟨hst, by rw [h1], ?_, fun ord2 next => by rw [hst]⟩
  rw [handleLine_PUT hF hP ord (handleLine ord s raw).store]

/-- C6 at a concrete input: `PUT a 1 2` on the empty map. -/
theorem put_twice_same_store_witness :
    cmdOf "PUT a 1 2\n" = some "PUT" ∧ keyOf "PUT a 1 2\n" ≠ none ∧
    (handleLine RangeOrder.asStored
        (handleLine RangeOrder.asStored NewKVStore "PUT a 1 2\n").store "PUT a 1 2\n").store
      = (handleLine RangeOrder.asStored NewKVStore "PUT a 1 2\n").store ∧
    (handleLine RangeOrder.asStored NewKVStore "PUT a 1 2\n").out = [Fprintln "OK"] ∧
    (handleLine RangeOrder.asStored
        (handleLine RangeOrder.asStored NewKVStore "PUT a 1 2\n").store "PUT a 1 2\n").out
      = [Fprintln "OK"] ∧
    ∀ (ord2 : RangeOrder) (next : String),
      handleLine ord2
          (handleLine RangeOrder.asStored
            (handleLine RangeOrder.asStored NewKVStore "PUT a 1 2\n").store "PUT a 1 2\n").store
          next
        = handleLine ord2 (handleLine RangeOrder.asStored NewKVStore "PUT a 1 2\n").store next :=
  ⟨by decide, by decide,
    put_twice_same_store RangeOrder.asStored NewKVStore "PUT a 1 2\n" (by decide) (by decide)⟩

/-! ## The scenario of the specification -/

/-- C7: on the empty map the input `PUT a 1`, `GET a`, `DELETE a`, `GET a`, `LIST`
is answered `OK`, `VALUE 1`, `OK`, `ERR key not found`, `EMPTY`, one line for each
command; the map is empty again when the input ends. -/
theorem scenario_put_get_delete_get_list (ord : RangeOrder) :
    handleConnection ord NewKVStore "PUT a 1\nGET a\nDELETE a\nGET a\nLIST\n"
      = ⟨NewKVStore,
          [Fprintln "OK", Fprintln "VALUE 1", Fprintln "OK", Fprintln "ERR key not found",
            Fprintln "EMPTY"],
          .closed⟩ := by
  rfl

/-! ## Unknown commands -/

/-- C8: a non-blank line whose first token, in capitals, is none of PUT, GET,
DELETE, LIST, QUIT is answered with the one line
`ERR unknown command. Supported: PUT, GET, DELETE, LIST, QUIT`; the map is not
touched and the handler awaits the next line. -/
theorem unknown_command_reply (ord : RangeOrder) (s : KVStore) (raw : String)
    (hnb : TrimSpace raw ≠ "")
    (hc : ∀ c, cmdOf raw = some c → c ∉ ["PUT", "GET", "DELETE", "LIST", "QUIT"]) :
    handleLine ord s raw =
      ⟨s, [Fprintln "ERR unknown command. Supported: PUT, GET, DELETE, LIST, QUIT"],
        .awaiting⟩ := by
  rcases hF : partsOf raw with _ | ⟨p0, args⟩
  · exact absurd hF (partsOf_ne_nil hnb)
  · have hc2 := hc (ToUpper p0) (by simp [cmdOf, hF])
    simp only [List.mem_cons, List.mem_singleton, List.not_mem_nil, or_false, not_or] at hc2
    obtain ⟨h1, h2, h3, h4, h5⟩ := hc2
    unfold partsOf at hF
    simp only [handleLine, hnb, hF, if_false, if_neg h1, if_neg h2, if_neg h3, if_neg h4,
      if_neg h5]

/-- C8 at a concrete input: the line `FOO`. -/
theorem unknown_command_reply_witness :
    TrimSpace "FOO\n" ≠ "" ∧
    (∀ c, cmdOf "FOO\n" = some c → c ∉ ["PUT", "GET", "DELETE", "LIST", "QUIT"]) ∧
    handleLine RangeOrder.asStored NewKVStore "FOO\n" =
      ⟨NewKVStore, [Fprintln "ERR unknown command. Supported: PUT, GET, DELETE, LIST, QUIT"],
        .awaiting⟩ :=
  have hc : ∀ c, cmdOf "FOO\n" = some c → c ∉ ["PUT", "GET", "DELETE", "LIST", "QUIT"] := by
    intro c h
    have e : cmdOf "FOO\n" = some "FOO" := by decide
    rw [e] at h
    cases h
    decide
  ⟨by decide, hc, unknown_command_reply RangeOrder.asStored NewKVStore "FOO\n" (by decide) hc⟩

/-! ## Error replies -/

/-- C9: for a PUT, GET or DELETE line the handler writes the usage line of the
command, and nothing else, exactly when the token count is wrong: fewer than two
tokens for PUT, other than two for GET and DELETE. The map is not touched then.
In every other case of these commands nothing written begins with
`ERR usage`. -/
theorem usage_error_cases (ord : RangeOrder) (s : KVStore) (raw c : String)
    (hc : cmdOf raw = some c) (h3 : c = "PUT" ∨ c = "GET" ∨ c = "DELETE") :
    (((c = "PUT" ∧ (partsOf raw).length < 2) ∨ (c ≠ "PUT" ∧ (partsOf raw).length ≠ 2)) →
      handleLine ord s raw = ⟨s, [Fprintln (usageLine c)], .awaiting⟩) ∧
    (¬((c = "PUT" ∧ (partsOf raw).length < 2) ∨ (c ≠ "PUT" ∧ (partsOf raw).length ≠ 2)) →
      ∀ w ∈ (handleLine ord s raw).out, ¬ HasPrefix w "ERR usage") := by
  rcases hF : partsOf raw with _ | ⟨p0, args⟩
  · simp [cmdOf, hF] at hc
  · have hU : ToUpper p0 = c := by simpa [cmdOf, hF] using hc
    have h0 := TrimSpace_ne_empty_of_parts hF
    have hF2 : Fields (TrimSpace raw) = p0 :: args := hF
    have g1 : ("GET" : String) ≠ "PUT" := by decide
    have d1 : ("DELETE" : String) ≠ "PUT" := by decide
    have d2 : ("DELETE" : String) ≠ "GET" := by decide
    have ok : ¬ HasPrefix (Fprintln "OK") "ERR usage" := by decide
    have nf : ¬ HasPrefix (Fprintln "ERR key not found") "ERR usage" := by decide
    rcases h3 with rfl | rfl | rfl
    · rcases args with _ | ⟨key, rest⟩
      · refine ⟨fun _ => ?_, fun h => absurd (Or.inl ⟨rfl, by simp⟩) h⟩
        simp only [handleLine, h0, hF2, hU, if_true, if_false]
        rfl
      · refine ⟨fun h => ?_, fun _ w hw => ?_⟩
        · rcases h with ⟨_, h⟩ | ⟨h, _⟩
          · simp only [List.length_cons] at h
            omega
          · exact absurd rfl h
        · rw [handleLine_PUT hF hU ord s] at hw
          rw [List.mem_singleton.mp hw]
          exact ok
    · rcases args with _ | ⟨key, _ | ⟨k2, rest⟩⟩
      · refine ⟨fun _ => ?_, fun h => absurd (Or.inr ⟨g1, by simp⟩) h⟩
        simp only [handleLine, h0, hF2, hU, if_neg g1, if_true, if_false]
        rfl
      · refine ⟨fun h => ?_, fun _ w hw => ?_⟩
        · rcases h with ⟨h, _⟩ | ⟨_, h⟩
          · exact absurd h g1
          · simp at h
        · simp only [handleLine, h0, hF2, hU, if_neg g1, if_true, if_false] at hw
          cases hg : s.Get key with
          | none =>
            rw [hg] at hw
            rw [List.mem_singleton.mp hw]
            exact nf
          | some val =>
            rw [hg] at hw
            rw [List.mem_singleton.mp hw]
            exact not_hasPrefix_usage_of_ERR (not_hasPrefix_VALUE val)
      · refine ⟨fun _ => ?_, fun h => absurd (Or.inr ⟨g1, by simp⟩) h⟩
        simp only [handleLine, h0, hF2, hU, if_neg g1, if_true, if_false]
        rfl
    · rcases args with _ | ⟨key, _ | ⟨k2, rest⟩⟩
      · refine ⟨fun _ => ?_, fun h => absurd (Or.inr ⟨d1, by simp⟩) h⟩
        simp only [handleLine, h0, hF2, hU, if_neg d1, if_neg d2, if_true, if_false]
        rfl
      · refine ⟨fun h => ?_, fun _ w hw => ?_⟩
        · rcases h with ⟨h, _⟩ | ⟨_, h⟩
          · exact absurd h d1
          · simp at h
        · simp only [handleLine, h0, hF2, hU, if_neg d1, if_neg d2, if_true, if_false] at hw
          cases hd : (s.Delete key).2 with
          | false =>
            simp only [hd, Bool.false_eq_true, if_false] at hw
            rw [List.mem_singleton.mp hw]
            exact nf
          | true =>
            simp only [hd, if_true] at hw
            rw [List.mem_singleton.mp hw]
            exact ok
      · refine ⟨fun _ => ?_, fun h => absurd (Or.inr ⟨d1, by simp⟩) h⟩
        simp only [handleLine, h0, hF2, hU, if_neg d1, if_neg d2, if_true, if_false]
        rfl

/-- C9 at concrete inputs: `GET a b` has three tokens and gets the usage line;
`GET a` has two and gets none. -/
theorem usage_error_cases_witness :
    cmdOf "GET a b\n" = some "GET" ∧
    (("GET" = "PUT" ∧ (partsOf "GET a b\n").length < 2) ∨
      ("GET" ≠ "PUT" ∧ (partsOf "GET a b\n").length ≠ 2)) ∧
    handleLine RangeOrder.asStored NewKVStore "GET a b\n"
      = ⟨NewKVStore, [Fprintln "ERR usage: GET <key>"], .awaiting⟩ ∧
    cmdOf "GET a\n" = some "GET" ∧
    ¬(("GET" = "PUT" ∧ (partsOf "GET a\n").length < 2) ∨
      ("GET" ≠ "PUT" ∧ (partsOf "GET a\n").length ≠ 2)) ∧
    ∀ w ∈ (handleLine RangeOrder.asStored NewKVStore "GET a\n").out,
      ¬ HasPrefix w "ERR usage" :=
  ⟨by decide, by decide,
    ((usage_error_cases RangeOrder.asStored NewKVStore "GET a b\n" "GET" (by decide)
      (by decide)).1 (by decide)).trans (by rfl),
    by decide, by decide,
    (usage_error_cases RangeOrder.asStored NewKVStore "GET a\n" "GET" (by decide)
      (by decide)).2 (by decide)⟩

/-- C10: when a text written for a line begins with `ERR`, the map after the
line is the map before it. -/
theorem err_reply_leaves_store (ord : RangeOrder) (s : KVStore) (raw : String)
    (h : ∃ w ∈ (handleLine ord s raw).out, HasPrefix w "ERR") :
    (handleLine ord s raw).store = s := by
  rcases handleLine_store_eq_or_ok ord s raw with h1 | h1
  · exact h1
  · obtain ⟨w, hw, hp⟩ := h
    rw [h1] at hw
    rw [List.mem_singleton.mp hw] at hp
    exact absurd hp (by decide)

/-- C10 at a concrete input: `DELETE b` on the map that holds only `a`. -/
theorem err_reply_leaves_store_witness :
    (∃ w ∈ (handleLine RangeOrder.asStored (NewKVStore.Put "a" "1") "DELETE b\n").out,
        HasPrefix w "ERR") ∧
    (handleLine RangeOrder.asStored (NewKVStore.Put "a" "1") "DELETE b\n").store
      = NewKVStore.Put "a" "1" :=
  have h : ∃ w ∈ (handleLine RangeOrder.asStored (NewKVStore.Put "a" "1") "DELETE b\n").out,
      HasPrefix w "ERR" := ⟨Fprintln "ERR key not found", by decide, by decide⟩
  ⟨h, err_reply_leaves_store RangeOrder.asStored (NewKVStore.Put "a" "1") "DELETE b\n" h⟩

/-! ## Every command and its reply -/

/-- The texts the handler writes that do not depend on the map. -/
theorem handleLine_outcome_cases (ord : RangeOrder) (s : KVStore) (raw : String)
    (h0 : TrimSpace raw ≠ "") :
    ∃ p0 args, partsOf raw = p0 :: args ∧
      ((ToUpper p0 = "QUIT" ∧ handleLine ord s raw = ⟨s, [Fprintln "BYE"], .closed⟩) ∨
       (ToUpper p0 = "LIST" ∧
          handleLine ord s raw =
            if s.entries.length = 0 then ⟨s, [Fprintln "EMPTY"], .awaiting⟩
            else ⟨s, (ord.iter s.entries).map entryLine ++ [Fprintln "END"], .awaiting⟩) ∨
       (ToUpper p0 ≠ "QUIT" ∧ ToUpper p0 ≠ "LIST" ∧
          (handleLine ord s raw).state = .awaiting ∧
          ∃ w, (handleLine ord s raw).out = [w] ∧
            (w ∈ [Fprintln "OK", Fprintln "ERR usage: PUT <key> <value>",
                  Fprintln "ERR usage: GET <key>", Fprintln "ERR usage: DELETE <key>",
                  Fprintln "ERR key not found",
                  Fprintln "ERR unknown command. Supported: PUT, GET, DELETE, LIST, QUIT"] ∨
              ∃ key val, s.Get key = some val ∧ w = "VALUE " ++ val ++ "\n"))) := by
  rcases hF : partsOf raw with _ | ⟨p0, args⟩
  · exact absurd hF (partsOf_ne_nil h0)
  · refine ⟨p0, args, rfl, ?_⟩
    have hF2 : Fields (TrimSpace raw) = p0 :: args := hF
    have pq : ("PUT" : String) ≠ "QUIT" := by decide
    have pl : ("PUT" : String) ≠ "LIST" := by decide
    have gq : ("GET" : String) ≠ "QUIT" := by decide
    have gl : ("GET" : String) ≠ "LIST" := by decide
    have dq : ("DELETE" : String) ≠ "QUIT" := by decide
    have dl : ("DELETE" : String) ≠ "LIST" := by decide
    by_cases hP : ToUpper p0 = "PUT"
    · right; right
      refine ⟨by rw [hP]; exact pq, by rw [hP]; exact pl, ?_⟩
      rcases args with _ | ⟨key, rest⟩
      · simp only [handleLine, h0, hF2, hP, if_true, if_false]
        exact ⟨trivial, _, rfl, Or.inl (by simp)⟩
      · rw [handleLine_PUT hF hP ord s]
        exact ⟨rfl, _, rfl, Or.inl (by simp)⟩
    · by_cases hG : ToUpper p0 = "GET"
      · right; right
        refine ⟨by rw [hG]; exact gq, by rw [hG]; exact gl, ?_⟩
        simp only [handleLine, h0, hF2, if_false, if_neg hP, if_pos hG]
        rcases args with _ | ⟨key, _ | ⟨k2, rest⟩⟩
        · exact ⟨rfl, _, rfl, Or.inl (by simp)⟩
        · simp only
          cases hg : s.Get key with
          | none => exact ⟨rfl, _, rfl, Or.inl (by simp)⟩
          | some val => exact ⟨rfl, _, rfl, Or.inr ⟨key, val, hg, rfl⟩⟩
        · exact ⟨rfl, _, rfl, Or.inl (by simp)⟩
      · by_cases hD : ToUpper p0 = "DELETE"
        · right; right
          refine ⟨by rw [hD]; exact dq, by rw [hD]; exact dl, ?_⟩
          simp only [handleLine, h0, hF2, if_false, if_neg hP, if_neg hG, if_pos hD]
          rcases args with _ | ⟨key, _ | ⟨k2, rest⟩⟩
          · exact ⟨rfl, _, rfl, Or.inl (by simp)⟩
          · simp only
            cases hd : (s.Delete key).2 with
            | false =>
              simp only [Bool.false_eq_true, if_false]
              exact ⟨trivial, _, rfl, Or.inl (by simp)⟩
            | true =>
              simp only [if_true]
              exact ⟨trivial, _, rfl, Or.inl (by simp)⟩
          · exact ⟨rfl, _, rfl, Or.inl (by simp)⟩
        · by_cases hL : ToUpper p0 = "LIST"
          · right; left
            refine ⟨hL, ?_⟩
            simp only [handleLine, h0, hF2, if_false, if_neg hP, if_neg hG, if_neg hD, if_pos hL,
              KVStore.List]
          · by_cases hQ : ToUpper p0 = "QUIT"
            · left
              refine ⟨hQ, ?_⟩
              simp only [handleLine, h0, hF2, if_false, if_neg hP, if_neg hG, if_neg hD,
                if_neg hL, if_pos hQ]
            · right; right
              refine ⟨hQ, hL, ?_⟩
              simp only [handleLine, h0, hF2, if_false, if_neg hP, if_neg hG, if_neg hD,
                if_neg hL, if_neg hQ]
              exact ⟨trivial, _, rfl, Or.inl (by simp)⟩

theorem handleLine_blank (ord : RangeOrder) (s : KVStore) (raw : String)
    (h0 : TrimSpace raw = "") : handleLine ord s raw = ⟨s, [], .awaiting⟩ := by
  simp only [handleLine, h0, if_true]

theorem cmdOf_blank {raw : String} (h0 : TrimSpace raw = "") : cmdOf raw = none := by
  unfold cmdOf partsOf
  rw [h0]
  rfl

/-- The loop returns after a line exactly when the command is QUIT; otherwise it
awaits the next line. The panic of `parts[0]` does not occur. -/
theorem handleLine_state (ord : RangeOrder) (s : KVStore) (raw : String) :
    (cmdOf raw = some "QUIT" ∧ handleLine ord s raw = ⟨s, [Fprintln "BYE"], .closed⟩) ∨
    (cmdOf raw ≠ some "QUIT" ∧ (handleLine ord s raw).state = .awaiting) := by
  by_cases h0 : TrimSpace raw = ""
  · right
    rw [handleLine_blank ord s raw h0, cmdOf_blank h0]
    exact ⟨by simp, rfl⟩
  · obtain ⟨p0, args, hF, h⟩ := handleLine_outcome_cases ord s raw h0
    have hc : cmdOf raw = some (ToUpper p0) := by simp [cmdOf, hF]
    rcases h with ⟨hQ, h⟩ | ⟨hL, h⟩ | ⟨hQ, _, h, _⟩
    · left
      exact ⟨by rw [hc, hQ], h⟩
    · right
      have lq : ("LIST" : String) ≠ "QUIT" := by decide
      refine ⟨by rw [hc, hL]; simp, ?_⟩
      rw [h]
      split <;> rfl
    · right
      exact ⟨by rw [hc]; simpa using hQ, h⟩

/-! ## Blank lines -/

/-- C11: the handler writes nothing for a line exactly when the line is blank; a
blank line leaves the map as it is and the handler awaiting the next line, and
every line that is not blank gets at least one text written. -/
theorem reply_iff_not_blank (ord : RangeOrder) (s : KVStore) (raw : String) :
    ((handleLine ord s raw).out = [] ↔ TrimSpace raw = "") ∧
    (TrimSpace raw = "" → handleLine ord s raw = ⟨s, [], .awaiting⟩) ∧
    (TrimSpace raw ≠ "" → 1 ≤ (handleLine ord s raw).out.length) := by
  have hpos : TrimSpace raw ≠ "" → 1 ≤ (handleLine ord s raw).out.length := by
    intro h0
    obtain ⟨p0, args, _, h⟩ := handleLine_outcome_cases ord s raw h0
    rcases h with ⟨_, h⟩ | ⟨_, h⟩ | ⟨_, _, _, w, h, _⟩
    · rw [h]; simp
    · rw [h]
      split <;> simp
    · rw [h]; simp
  refine ⟨⟨fun h => ?_, fun h0 => by rw [handleLine_blank ord s raw h0]⟩,
    handleLine_blank ord s raw, hpos⟩
  by_contra h0
  have := hpos h0
  rw [h] at this
  simp at this

/-- C11 at concrete inputs: the blank line of a tab and a newline, and `GET a`. -/
theorem reply_iff_not_blank_witness :
    (TrimSpace " \t\r\n" = "" ∧
      handleLine RangeOrder.asStored (NewKVStore.Put "a" "1") " \t\r\n"
        = ⟨NewKVStore.Put "a" "1", [], .awaiting⟩) ∧
    (TrimSpace "GET a\n" ≠ "" ∧
      1 ≤ (handleLine RangeOrder.asStored (NewKVStore.Put "a" "1") "GET a\n").out.length) :=
  ⟨⟨by decide,
      (reply_iff_not_blank RangeOrder.asStored (NewKVStore.Put "a" "1") " \t\r\n").2.1
        (by decide)⟩,
    ⟨by decide,
      (reply_iff_not_blank RangeOrder.asStored (NewKVStore.Put "a" "1") "GET a\n").2.2
        (by decide)⟩⟩

/-! ## QUIT -/

theorem serve_cons_awaiting (ord : RangeOrder) (s : KVStore) (l : String) (ls : List String)
    (h : (handleLine ord s l).state = .awaiting) :
    serve ord s (l :: ls)
      = ⟨(serve ord (handleLine ord s l).store ls).store,
          (handleLine ord s l).out ++ (serve ord (handleLine ord s l).store ls).out,
          (serve ord (handleLine ord s l).store ls).state⟩ := by
  simp only [serve, h]

theorem serve_cons_quit (ord : RangeOrder) (s : KVStore) (l : String) (ls : List String)
    (h : cmdOf l = some "QUIT") :
    serve ord s (l :: ls) = ⟨s, [Fprintln "BYE"], .closed⟩ := by
  rcases handleLine_state ord s l with ⟨_, h2⟩ | ⟨h1, _⟩
  · simp only [serve, h2]
  · exact absurd h h1

/-- The loop over the lines of a connection always ends with the connection
closed. -/
theorem serve_state (ord : RangeOrder) :
    ∀ (ls : List String) (s : KVStore), (serve ord s ls).state = .closed
  | [], _ => rfl
  | l :: ls, s => by
    rcases handleLine_state ord s l with ⟨h, _⟩ | ⟨_, h⟩
    · rw [serve_cons_quit ord s l ls h]
    · rw [serve_cons_awaiting ord s l ls h]
      exact serve_state ord ls _

theorem serve_until_quit (ord : RangeOrder) (q : String) (post : List String)
    (hq : cmdOf q = some "QUIT") :
    ∀ (pre : List String) (s : KVStore), (∀ l ∈ pre, cmdOf l ≠ some "QUIT") →
      serve ord s (pre ++ q :: post)
        = ⟨(serve ord s pre).store, (serve ord s pre).out ++ [Fprintln "BYE"], .closed⟩
  | [], s, _ => by
    rw [List.nil_append, serve_cons_quit ord s q post hq]
    rfl
  | l :: pre, s, hpre => by
    have ih := serve_until_quit ord q post hq pre (handleLine ord s l).store
      (fun x hx => hpre x (List.mem_cons_of_mem _ hx))
    rcases handleLine_state ord s l with ⟨h, _⟩ | ⟨_, h⟩
    · exact absurd h (hpre l (List.mem_cons_self _ _))
    · rw [List.cons_append, serve_cons_awaiting ord s l _ h, serve_cons_awaiting ord s l _ h, ih]
      simp only [List.append_assoc]

/-- C12: the loop returns after a line exactly when the first token of the line,
in capitals, is QUIT (it also returns when the input ends); the QUIT line is
answered with the one line `BYE` and leaves the map as it is; on a connection,
nothing after the first QUIT line is handled: the outcome is that of the lines
before it followed by `BYE`, whatever follows. -/
theorem quit_closes_connection (ord : RangeOrder) (s : KVStore) (raw q : String)
    (pre post : List String) (hpre : ∀ l ∈ pre, cmdOf l ≠ some "QUIT")
    (hq : cmdOf q = some "QUIT") :
    ((handleLine ord s raw).state = .closed ↔ cmdOf raw = some "QUIT") ∧
    (handleLine ord s raw).state ≠ .fault ∧
    handleLine ord s q = ⟨s, [Fprintln "BYE"], .closed⟩ ∧
    (serve ord s pre).state = .closed ∧
    serve ord s (pre ++ q :: post)
      = ⟨(serve ord s pre).store, (serve ord s pre).out ++ [Fprintln "BYE"], .closed⟩ := by
  refine ⟨?_, ?_, ?_, serve_state ord pre s, serve_until_quit ord q post hq pre s hpre⟩
  · rcases handleLine_state ord s raw with ⟨h1, h2⟩ | ⟨h1, h2⟩
    · rw [h2]; exact ⟨fun _ => h1, fun _ => rfl⟩
    · rw [h2]; exact ⟨fun h => (by cases h), fun h => absurd h h1⟩
  · rcases handleLine_state ord s raw with ⟨_, h2⟩ | ⟨_, h2⟩
    · rw [h2]; intro h; cases h
    · rw [h2]; intro h; cases h
  · rcases handleLine_state ord s q with ⟨_, h2⟩ | ⟨h1, _⟩
    · exact h2
    · exact absurd hq h1

/-- C12 at a concrete input: `PUT a 1`, `quit now`, `PUT b 2`. -/
theorem quit_closes_connection_witness :
    (∀ l ∈ ["PUT a 1\n"], cmdOf l ≠ some "QUIT") ∧ cmdOf "quit now\n" = some "QUIT" ∧
    serve RangeOrder.asStored NewKVStore (["PUT a 1\n"] ++ "quit now\n" :: ["PUT b 2\n"])
      = ⟨NewKVStore.Put "a" "1", [Fprintln "OK", Fprintln "BYE"], .closed⟩ :=
  ⟨by decide, by decide,
    (quit_closes_connection RangeOrder.asStored NewKVStore "GET a\n" "quit now\n"
      ["PUT a 1\n"] ["PUT b 2\n"] (by decide) (by decide)).2.2.2.2.trans (by rfl)⟩

/-! ## Reading the input -/

/-- The list `readLines` is what the loop gets from `ReadString`, call after
call, until the call that returns an error. -/
theorem readLines_eq_ReadString : ∀ l : List Char,
    readLines l =
      if (ReadString l).2.2 = true then []
      else (ReadString l).1 :: readLines (ReadString l).2.1
  | [] => rfl
  | c :: cs => by
    by_cases hc : c.toNat = 10
    · simp [readLines, ReadString, hc]
    · have ih := readLines_eq_ReadString cs
      simp only [readLines, ReadString, hc, if_false]
      rw [ih]
      cases (ReadString cs).2.2 <;> simp

theorem readLines_no_newline : ∀ t : List Char, (∀ c ∈ t, c.toNat ≠ 10) → readLines t = []
  | [], _ => rfl
  | c :: cs, h => by
    have hc : c.toNat ≠ 10 := h c (List.mem_cons_self _ _)
    have ih := readLines_no_newline cs (fun x hx => h x (List.mem_cons_of_mem _ hx))
    simp [readLines, hc, ih]

theorem readLines_append_no_newline (t : List Char) (h : ∀ c ∈ t, c.toNat ≠ 10) :
    ∀ l : List Char, readLines (l ++ t) = readLines l
  | [] => by rw [List.nil_append, readLines_no_newline t h]; rfl
  | c :: cs => by
    have ih := readLines_append_no_newline t h cs
    have e : ∀ x : List Char, readLines (c :: x) =
        if c.toNat = 10 then [c] :: readLines x
        else
          match readLines x with
          | [] => []
          | l :: ls => (c :: l) :: ls := fun _ => rfl
    rw [List.cons_append, e, e, ih]

/-- C19: text at the end of the input that is not closed by a newline is never
handled as a command. The outcome for an input whose last part `tail` holds no
newline is the outcome for the input without that part (so for the input cut
after its last newline), and an input without any newline writes nothing and
leaves the map as it is. -/
theorem unterminated_tail_not_executed (ord : RangeOrder) (s : KVStore) (pre tail : String)
    (h : ∀ c ∈ tail.data, c.toNat ≠ 10) :
    handleConnection ord s (pre ++ tail) = handleConnection ord s pre ∧
    handleConnection ord s tail = ⟨s, [], .closed⟩ := by
  constructor
  · unfold handleConnection
    rw [String.data_append, readLines_append_no_newline tail.data h]
  · unfold handleConnection
    rw [readLines_no_newline tail.data h]
    rfl

/-- C19 at a concrete input: `PUT a 1` with its newline, then `PUT k v` without. -/
theorem unterminated_tail_not_executed_witness :
    (∀ c ∈ ("PUT k v" : String).data, c.toNat ≠ 10) ∧
    handleConnection RangeOrder.asStored NewKVStore ("PUT a 1\n" ++ "PUT k v")
      = ⟨NewKVStore.Put "a" "1", [Fprintln "OK"], .closed⟩ ∧
    handleConnection RangeOrder.asStored NewKVStore "PUT k v" = ⟨NewKVStore, [], .closed⟩ :=
  have h := unterminated_tail_not_executed RangeOrder.asStored NewKVStore "PUT a 1\n" "PUT k v"
    (by decide)
  ⟨by decide, h.1.trans (by rfl), h.2⟩

/-! ## The end of a session, seen from both sides -/

theorem toUpperRune_of_isSpace (c : Char) (h : isSpace c = true) : toUpperRune c = c := by
  unfold isSpace at h
  unfold toUpperRune
  simp only [Bool.or_eq_true, Bool.and_eq_true, beq_iff_eq, decide_eq_true_eq] at h
  have h1 : ¬ (97 ≤ c.toNat ∧ c.toNat ≤ 122) := by omega
  have h2 : ¬ c.toNat = 0x131 := by omega
  have h3 : ¬ c.toNat = 0x17F := by omega
  simp only [h1, h2, h3, if_false]

/-- When the client's test holds the server closes the connection: a text whose
capitals are `QUIT` is one token. -/
theorem server_closes_when_client_ends (ord : RangeOrder) (s : KVStore) (text : String)
    (h : clientEnds text) :
    handleLine ord s (text ++ "\n") = ⟨s, [Fprintln "BYE"], .closed⟩ := by
  unfold clientEnds ToUpper at h
  have hd : text.data.map toUpperRune = ['Q', 'U', 'I', 'T'] := congrArg String.data h
  have htok : ∀ x ∈ text.data, isSpace x = false := by
    intro x hx
    cases hsp : isSpace x with
    | false => rfl
    | true =>
      have hm : toUpperRune x ∈ text.data.map toUpperRune := List.mem_map_of_mem _ hx
      rw [hd, toUpperRune_of_isSpace x hsp] at hm
      have : isSpace x = false := by
        simp only [List.mem_cons, List.mem_singleton, List.not_mem_nil, or_false] at hm
        rcases hm with rfl | rfl | rfl | rfl <;> decide
      rw [hsp] at this
      exact this
  have hne : text.data ≠ [] := by
    intro e
    rw [e] at hd
    exact List.noConfusion hd
  have hT : TrimSpace (text ++ "\n") = text := by
    unfold TrimSpace
    have e : (text ++ "\n").data = text.data ++ [Char.ofNat 10] := by
      rw [String.data_append]
    rw [e, trimSpaceL_concat_space _ _ hne (htok _ (List.head_mem hne))
      (htok _ (List.getLast_mem hne)) (by decide)]
  have hc : cmdOf (text ++ "\n") = some "QUIT" := by
    unfold cmdOf partsOf Fields
    rw [hT, fieldsL_token _ hne htok]
    exact congrArg some h
  rcases handleLine_state ord s (text ++ "\n") with ⟨_, h2⟩ | ⟨h1, _⟩
  · exact h2
  · exact absurd hc h1

/-- C18, evaluated where it fails: `QUIT now` is a text the client sends; the
server answers it `BYE` and closes the connection, as its first token is `QUIT`;
the client's test fails on it, as the whole text in capitals is `QUIT NOW`, so
the client goes on with the session. -/
theorem quit_with_argument_ends_only_server :
    IsCommandText "QUIT now" ∧
    cmdOf (Fprintln "QUIT now") = some "QUIT" ∧
    (∀ (ord : RangeOrder) (s : KVStore),
      handleLine ord s (Fprintln "QUIT now") = ⟨s, [Fprintln "BYE"], .closed⟩) ∧
    ¬ clientEnds "QUIT now" :=
  ⟨by decide, by decide,
    fun ord s => (handleLine_state ord s (Fprintln "QUIT now")).elim (fun h => h.2)
      (fun h => absurd (by decide) h.1),
    by decide⟩

/-! ## The letter case of the command word -/

/-- C15, evaluated where it fails: `put` and `PUT` are the same command word up to
letter case and both lines are answered `OK`, but `PUT U v` stores `T U v` under
`U` while `put U v` stores `v`: the key is searched from the start of the line
and `U` occurs in `PUT`, not in `put`. -/
theorem put_value_depends_on_case_of_command_word :
    ToUpper "put" = ToUpper "PUT" ∧
    ∀ ord : RangeOrder,
      (handleLine ord NewKVStore "PUT U v\n").out = [Fprintln "OK"] ∧
      (handleLine ord NewKVStore "put U v\n").out = [Fprintln "OK"] ∧
      (handleLine ord NewKVStore "PUT U v\n").store.Get "U" = some "T U v" ∧
      (handleLine ord NewKVStore "put U v\n").store.Get "U" = some "v" ∧
      (handleLine ord NewKVStore "PUT U v\n").store ≠ (handleLine ord NewKVStore "put U v\n").store :=
  ⟨by decide, fun _ => ⟨by rfl, by rfl, by rfl, by rfl, fun h =>
    absurd ((show some "T U v" = KVStore.Get _ "U" from by rfl).trans
      ((congrArg (fun t => KVStore.Get t "U") h).trans (show KVStore.Get _ "U" = some "v" from by rfl)))
      (by decide)⟩⟩

/-! ## What a reachable map holds -/

theorem fieldsL_tokens : ∀ (l : List Char), ∀ t ∈ fieldsL l,
    t ≠ [] ∧ ∀ c ∈ t, isSpace c = false
  | [], t, ht => by simp [fieldsL] at ht
  | c :: cs, t, ht => by
    have ih := fieldsL_tokens cs
    unfold fieldsL at ht
    cases hc : isSpace c with
    | true =>
      simp only [hc, if_true] at ht
      exact ih t ht
    | false =>
      simp only [hc, Bool.false_eq_true, if_false] at ht
      cases cs with
      | nil =>
        simp only [List.mem_singleton] at ht
        subst ht
        exact ⟨by simp, by simp [hc]⟩
      | cons d ds =>
        simp only at ht
        cases hd : isSpace d with
        | true =>
          simp only [hd, if_true, List.mem_cons] at ht
          rcases ht with rfl | ht
          · exact ⟨by simp, by simp [hc]⟩
          · exact ih t ht
        | false =>
          simp only [hd, Bool.false_eq_true, if_false] at ht
          cases hf : fieldsL (d :: ds) with
          | nil =>
            simp only [hf, List.mem_singleton] at ht
            subst ht
            exact ⟨by simp, by simp [hc]⟩
          | cons u us =>
            simp only [hf, List.mem_cons] at ht
            rcases ht with rfl | ht
            · have hu := ih u (by rw [hf]; exact List.mem_cons_self _ _)
              refine ⟨by simp, ?_⟩
              intro x hx
              rcases List.mem_cons.mp hx with rfl | hx
              · exact hc
              · exact hu.2 x hx
            · exact ih t (by rw [hf]; exact List.mem_cons_of_mem _ ht)

theorem partsOf_tokens (raw : String) : ∀ t ∈ partsOf raw, IsToken t := by
  intro t ht
  unfold partsOf Fields at ht
  obtain ⟨l, hl, rfl⟩ := List.mem_map.mp ht
  exact fieldsL_tokens _ l hl

theorem trimSpaceL_append_space (c : Char) (hc : isSpace c = true) :
    ∀ l : List Char, trimSpaceL (l ++ [c]) = trimSpaceL l
  | [] => by simp [trimSpaceL, List.dropWhile, hc]
  | a :: t => by
    cases ha : isSpace a with
    | true =>
      rw [List.cons_append, trimSpaceL_cons_space a _ ha, trimSpaceL_cons_space a _ ha]
      exact trimSpaceL_append_space c hc t
    | false =>
      unfold trimSpaceL
      have h1 : List.dropWhile isSpace (a :: t ++ [c]) = (a :: t) ++ [c] := by
        simp [List.dropWhile, ha]
      have h2 : List.dropWhile isSpace (a :: t) = a :: t := by
        simp [List.dropWhile, ha]
      rw [h1, h2, List.rdropWhile_concat_pos _ _ _ hc]

theorem trimSpaceL_subset (l : List Char) : ∀ c ∈ trimSpaceL l, c ∈ l := by
  intro c hc
  unfold trimSpaceL at hc
  exact (List.dropWhile_suffix isSpace).subset ((List.rdropWhile_prefix isSpace _).subset hc)

theorem line_data {raw : String} (h : IsLine raw) :
    raw.data = raw.data.dropLast ++ [Char.ofNat 10] :=
  (List.dropLast_append_getLast? _ (Option.mem_def.mpr h.1)).symm

theorem Get_Put_self (s : KVStore) (k v : String) : (s.Put k v).Get k = some v :=
  AList.lookup_insert s

theorem Get_Put_ne (s : KVStore) {k k2 : String} (v : String) (h : k2 ≠ k) :
    (s.Put k v).Get k2 = s.Get k2 :=
  AList.lookup_insert_ne h

/-- The trimmed text of a line read holds no newline. -/
theorem noNewline_TrimSpace_line {raw : String} (h : IsLine raw) : NoNewline (TrimSpace raw) := by
  intro c hc
  unfold TrimSpace at hc
  rw [line_data h, trimSpaceL_append_space _ (by decide)] at hc
  exact h.2 c (trimSpaceL_subset _ c hc)

theorem noNewline_of_token {k : String} (h : IsToken k) : NoNewline k := by
  intro c hc e
  have := h.2 c hc
  have hs : isSpace c = true := by
    unfold isSpace
    simp [e]
  rw [hs] at this
  exact Bool.noConfusion this

/-- The value a PUT line stores is a piece of the trimmed line. -/
theorem noNewline_put_value {line key : String} (h : NoNewline line) :
    NoNewline (if Index line key ≥ 0 then
        TrimSpace (sliceFrom line ((Index line key).toNat + key.length)) else "") := by
  split
  · intro c hc
    unfold TrimSpace sliceFrom at hc
    exact h c (List.mem_of_mem_drop (trimSpaceL_subset _ c hc))
  · intro c hc
    simp at hc

/-- The property of the map that every step of the handler keeps. -/
theorem entries_wellformed_step (ord : RangeOrder) (s : KVStore) (raw : String)
    (hl : IsLine raw)
    (hs : ∀ k v, s.Get k = some v → IsToken k ∧ NoNewline v) :
    ∀ k v, (handleLine ord s raw).store.Get k = some v → IsToken k ∧ NoNewline v := by
  intro k v hkv
  rcases handleLine_store_cases ord s raw with h1 | ⟨p0, key, rest, value, hF, hP, _⟩ |
    ⟨p0, key, hF, hD, _, h1⟩
  · rw [h1] at hkv
    exact hs k v hkv
  · rw [show (handleLine ord s raw).store = s.Put key _ from
      congrArg Outcome.store (handleLine_PUT hF hP ord s)] at hkv
    by_cases hk : k = key
    · subst hk
      rw [Get_Put_self] at hkv
      have hv := Option.some.inj hkv
      refine ⟨partsOf_tokens raw k (by rw [hF]; simp), ?_⟩
      rw [← hv]
      exact noNewline_put_value (noNewline_TrimSpace_line hl)
    · rw [Get_Put_ne s _ hk] at hkv
      exact hs k v hkv
  · rw [h1] at hkv
    by_cases hk : k = key
    · subst hk
      have : KVStore.Get (s.erase k) k = none := AList.lookup_erase k s
      rw [this] at hkv
      exact Option.noConfusion hkv
    · have : KVStore.Get (s.erase key) k = s.Get k := AList.lookup_erase_ne hk
      rw [this] at hkv
      exact hs k v hkv

theorem entries_wellformed {s : KVStore} (h : Reachable s) :
    ∀ k v, s.Get k = some v → IsToken k ∧ NoNewline v := by
  induction h with
  | empty =>
    intro k v hkv
    exact Option.noConfusion hkv
  | step ord s raw _ hl ih => exact entries_wellformed_step ord s raw hl ih

/-- C14 as stated fails: after the line `PUT k` on the empty map, which is
answered `OK`, the key `k` has the empty text as its value. -/
theorem reachable_store_with_empty_value :
    ¬ ∀ s : KVStore, Reachable s → ∀ k v, s.Get k = some v →
        (k ≠ "" ∧ NoNewline k) ∧ (v ≠ "" ∧ NoNewline v) := by
  intro h
  have hr : Reachable (handleLine RangeOrder.asStored NewKVStore "PUT k\n").store :=
    Reachable.step _ _ _ Reachable.empty (by decide)
  exact (h _ hr "k" "" (by rfl)).2.1 rfl

/-- C14, amended: in every map reachable from the empty map, every key is a
non-empty text without white space, so without newline, and every value is a
text without newline; a value may be empty. -/
theorem reachable_entries_wellformed (s : KVStore) (h : Reachable s) (k v : String)
    (hkv : s.Get k = some v) :
    (k ≠ "" ∧ IsToken k ∧ NoNewline k) ∧ NoNewline v := by
  obtain ⟨hk, hv⟩ := entries_wellformed h k v hkv
  refine ⟨⟨?_, hk, noNewline_of_token hk⟩, hv⟩
  rintro rfl
  exact hk.1 rfl

/-- C14, amended, at a concrete input: the map after `PUT a  x y`. -/
theorem reachable_entries_wellformed_witness :
    Reachable (handleLine RangeOrder.asStored NewKVStore "PUT a  x y\n").store ∧
    (handleLine RangeOrder.asStored NewKVStore "PUT a  x y\n").store.Get "a" = some "x y" ∧
    (("a" : String) ≠ "" ∧ IsToken "a" ∧ NoNewline "a") ∧ NoNewline "x y" :=
  have hr : Reachable (handleLine RangeOrder.asStored NewKVStore "PUT a  x y\n").store :=
    Reachable.step _ _ _ Reachable.empty (by decide)
  ⟨hr, by rfl, reachable_entries_wellformed _ hr "a" "x y" (by rfl)⟩

/-! ## Reading the map back from a LIST reply -/

theorem handleLine_LIST (ord : RangeOrder) (s : KVStore) :
    handleLine ord s "LIST\n" =
      if s.entries.length = 0 then ⟨s, [Fprintln "EMPTY"], .awaiting⟩
      else ⟨s, (ord.iter s.entries).map entryLine ++ [Fprintln "END"], .awaiting⟩ := by
  have hT : TrimSpace "LIST\n" = "LIST" := by decide
  have hF : Fields "LIST" = ["LIST"] := by decide
  have hne : ("LIST" : String) ≠ "" := by decide
  have u1 : ToUpper "LIST" ≠ "PUT" := by decide
  have u2 : ToUpper "LIST" ≠ "GET" := by decide
  have u3 : ToUpper "LIST" ≠ "DELETE" := by decide
  have u4 : ToUpper "LIST" = "LIST" := by decide
  simp only [handleLine, hT, hF, if_neg hne, if_neg u1, if_neg u2, if_neg u3, if_pos u4,
    KVStore.List]

theorem listLines_LIST (ord : RangeOrder) (s : KVStore) :
    listLines (handleLine ord s "LIST\n").out = (ord.iter s.entries).map entryLine := by
  rw [handleLine_LIST]
  by_cases h : s.entries.length = 0
  · rw [if_pos h]
    have h0 : s.entries = [] := List.length_eq_zero.mp h
    have h1 : ord.iter s.entries = [] := by
      have := ord.perm s.entries
      rw [h0] at this ⊢
      exact this.eq_nil
    rw [h1]
    rfl
  · rw [if_neg h]
    simp [listLines]

theorem mem_listLines_LIST (ord : RangeOrder) (s : KVStore) (w : String) :
    w ∈ listLines (handleLine ord s "LIST\n").out ↔ ∃ e ∈ s.entries, entryLine e = w := by
  rw [listLines_LIST, List.mem_map]
  constructor
  · rintro ⟨e, he, rfl⟩
    exact ⟨e, (ord.perm s.entries).mem_iff.mp he, rfl⟩
  · rintro ⟨e, he, rfl⟩
    exact ⟨e, (ord.perm s.entries).mem_iff.mpr he, rfl⟩

theorem append_cons_inj_of_not_mem (a : Char) :
    ∀ (k k2 r r2 : List Char), a ∉ k → a ∉ k2 → k ++ a :: r = k2 ++ a :: r2 → k = k2 ∧ r = r2
  | [], [], _, _, _, _, h => ⟨rfl, (List.cons.inj h).2⟩
  | [], b :: k2, _, _, _, h2, h => by
    have := (List.cons.inj h).1
    exact absurd (by rw [this]; exact List.mem_cons_self _ _) h2
  | b :: k, [], _, _, h1, _, h => by
    have := (List.cons.inj h).1
    exact absurd (by rw [← this]; exact List.mem_cons_self _ _) h1
  | b :: k, c :: k2, r, r2, h1, h2, h => by
    obtain ⟨e1, e2⟩ := List.cons.inj h
    have ih := append_cons_inj_of_not_mem a k k2 r r2
      (fun hm => h1 (List.mem_cons_of_mem _ hm)) (fun hm => h2 (List.mem_cons_of_mem _ hm)) e2
    exact ⟨by rw [e1, ih.1], ih.2⟩

/-- Two entries whose keys hold no `=` and that give the same line are equal. -/
theorem entryLine_injective {e e2 : Entry} (h1 : NoEqualsSign e.1) (h2 : NoEqualsSign e2.1)
    (h : entryLine e = entryLine e2) : e = e2 := by
  have hd := congrArg String.data h
  unfold entryLine at hd
  simp only [String.data_append] at hd
  simp only [List.append_assoc, List.singleton_append] at hd
  have n1 : Char.ofNat 61 ∉ e.1.data := fun hm => h1 _ hm (by decide)
  have n2 : Char.ofNat 61 ∉ e2.1.data := fun hm => h2 _ hm (by decide)
  obtain ⟨hk, hv⟩ := append_cons_inj_of_not_mem _ _ _ _ _ n1 n2 hd
  have hv2 : e.2.data = e2.2.data := List.append_cancel_right hv
  obtain ⟨k, v⟩ := e
  obtain ⟨k2, v2⟩ := e2
  have ek : k = k2 := String.ext hk
  have ev : v = v2 := String.ext hv2
  subst ek
  subst ev
  rfl

theorem Get_of_same_lines (ord1 ord2 : RangeOrder) (s1 s2 : KVStore)
    (h1 : ∀ e ∈ s1.entries, NoEqualsSign e.1) (h2 : ∀ e ∈ s2.entries, NoEqualsSign e.1)
    (h : ∀ w, w ∈ listLines (handleLine ord1 s1 "LIST\n").out →
      w ∈ listLines (handleLine ord2 s2 "LIST\n").out)
    (k v : String) (hkv : s1.Get k = some v) : s2.Get k = some v := by
  have hm : (⟨k, v⟩ : Entry) ∈ s1.entries := AList.mem_lookup_iff.mp hkv
  have hw := h (entryLine ⟨k, v⟩) ((mem_listLines_LIST ord1 s1 _).mpr ⟨_, hm, rfl⟩)
  obtain ⟨e2, he2, hl⟩ := (mem_listLines_LIST ord2 s2 _).mp hw
  have := entryLine_injective (h2 e2 he2) (h1 _ hm) hl
  rw [this] at he2
  exact AList.mem_lookup_iff.mpr he2

/-- C20 as stated fails: the maps after `PUT a=b c` and after `PUT a b=c` are
both reachable and both answer LIST with the one line `a=b=c`, but the first
holds the key `a=b` and the second the key `a`. -/
theorem list_reply_does_not_determine_store :
    ¬ ∀ (s1 s2 : KVStore), Reachable s1 → Reachable s2 → ∀ (ord1 ord2 : RangeOrder),
        (∀ w, w ∈ listLines (handleLine ord1 s1 "LIST\n").out ↔
          w ∈ listLines (handleLine ord2 s2 "LIST\n").out) →
        ∀ k, s1.Get k = s2.Get k := by
  intro h
  have r1 : Reachable (handleLine RangeOrder.asStored NewKVStore "PUT a=b c\n").store :=
    Reachable.step _ _ _ Reachable.empty (by decide)
  have r2 : Reachable (handleLine RangeOrder.asStored NewKVStore "PUT a b=c\n").store :=
    Reachable.step _ _ _ Reachable.empty (by decide)
  have e1 : listLines (handleLine RangeOrder.asStored
      (handleLine RangeOrder.asStored NewKVStore "PUT a=b c\n").store "LIST\n").out
      = ["a=b=c\n"] := by rfl
  have e2 : listLines (handleLine RangeOrder.asStored
      (handleLine RangeOrder.asStored NewKVStore "PUT a b=c\n").store "LIST\n").out
      = ["a=b=c\n"] := by rfl
  have := h _ _ r1 r2 RangeOrder.asStored RangeOrder.asStored (fun w => by rw [e1, e2]) "a"
  have g1 : (handleLine RangeOrder.asStored NewKVStore "PUT a=b c\n").store.Get "a" = none := by
    rfl
  have g2 : (handleLine RangeOrder.asStored NewKVStore "PUT a b=c\n").store.Get "a"
      = some "b=c" := by rfl
  rw [g1, g2] at this
  exact Option.noConfusion this

/-- C20, amended: for two maps none of whose keys holds `=`, if their LIST
replies consist of the same set of `key=value` lines, in whatever order, then
the two maps hold the same entries. -/
theorem list_reply_determines_store_without_equals_sign (ord1 ord2 : RangeOrder)
    (s1 s2 : KVStore)
    (h1 : ∀ e ∈ s1.entries, NoEqualsSign e.1) (h2 : ∀ e ∈ s2.entries, NoEqualsSign e.1)
    (h : ∀ w, w ∈ listLines (handleLine ord1 s1 "LIST\n").out ↔
      w ∈ listLines (handleLine ord2 s2 "LIST\n").out) :
    (∀ k, s1.Get k = s2.Get k) ∧ s1.entries.Perm s2.entries := by
  have hg : ∀ k, s1.Get k = s2.Get k := by
    intro k
    apply Option.ext
    intro v
    exact ⟨Get_of_same_lines ord1 ord2 s1 s2 h1 h2 (fun w => (h w).mp) k v,
      Get_of_same_lines ord2 ord1 s2 s1 h2 h1 (fun w => (h w).mpr) k v⟩
  refine ⟨hg, ?_⟩
  apply (List.perm_ext_iff_of_nodup s1.nodupKeys.nodup s2.nodupKeys.nodup).mpr
  rintro ⟨k, v⟩
  constructor
  · intro hm
    exact AList.mem_lookup_iff.mp ((hg k).symm.trans (AList.mem_lookup_iff.mpr hm))
  · intro hm
    exact AList.mem_lookup_iff.mp ((hg k).trans (AList.mem_lookup_iff.mpr hm))

/-- C20, amended, at a concrete input: the maps holding `a` and `b`, filled in
either order and listed in different orders. -/
theorem list_reply_determines_store_without_equals_sign_witness :
    (∀ e ∈ ((NewKVStore.Put "a" "1").Put "b" "2").entries, NoEqualsSign e.1) ∧
    (∀ e ∈ ((NewKVStore.Put "b" "2").Put "a" "1").entries, NoEqualsSign e.1) ∧
    (∀ k, ((NewKVStore.Put "a" "1").Put "b" "2").Get k
      = ((NewKVStore.Put "b" "2").Put "a" "1").Get k) ∧
    ((NewKVStore.Put "a" "1").Put "b" "2").entries.Perm
      ((NewKVStore.Put "b" "2").Put "a" "1").entries :=
  have e1 : listLines (handleLine RangeOrder.asStored ((NewKVStore.Put "a" "1").Put "b" "2")
      "LIST\n").out = ["b=2\n", "a=1\n"] := by rfl
  have e2 : listLines (handleLine RangeOrder.asStored ((NewKVStore.Put "b" "2").Put "a" "1")
      "LIST\n").out = ["a=1\n", "b=2\n"] := by rfl
  ⟨by decide, by decide,
    list_reply_determines_store_without_equals_sign RangeOrder.asStored RangeOrder.asStored
      ((NewKVStore.Put "a" "1").Put "b" "2") ((NewKVStore.Put "b" "2").Put "a" "1")
      (by decide) (by decide)
      (fun w => by
        rw [e1, e2]
        simp only [List.mem_cons, List.mem_singleton, List.not_mem_nil, or_false]
        exact or_comm)⟩

/-! ## The value a PUT line stores -/

/-- A line with a first token: blanks, the token, and a rest that is empty or
begins with a blank and holds the other tokens. -/
theorem fieldsL_cons_decomp : ∀ (l t : List Char) (ts : List (List Char)),
    fieldsL l = t :: ts →
      ∃ pre post, l = pre ++ t ++ post ∧ (∀ c ∈ pre, isSpace c = true) ∧
        (∀ c, post.head? = some c → isSpace c = true) ∧ fieldsL post = ts
  | [], t, ts, h => by simp [fieldsL] at h
  | c :: cs, t, ts, h => by
    unfold fieldsL at h
    cases hc : isSpace c with
    | true =>
      simp only [hc, if_true] at h
      obtain ⟨pre, post, e, h1, h2, h3⟩ := fieldsL_cons_decomp cs t ts h
      refine ⟨c :: pre, post, by rw [e]; simp, ?_, h2, h3⟩
      intro x hx
      rcases List.mem_cons.mp hx with rfl | hx
      · exact hc
      · exact h1 x hx
    | false =>
      simp only [hc, Bool.false_eq_true, if_false] at h
      cases cs with
      | nil =>
        simp only [List.cons.injEq] at h
        obtain ⟨rfl, rfl⟩ := h
        exact ⟨[], [], by simp, by simp, by simp, rfl⟩
      | cons d ds =>
        simp only at h
        cases hd : isSpace d with
        | true =>
          simp only [hd, if_true, List.cons.injEq] at h
          obtain ⟨rfl, rfl⟩ := h
          refine ⟨[], d :: ds, by simp, by simp, ?_, rfl⟩
          intro x hx
          simp only [List.head?_cons, Option.some.injEq] at hx
          rw [← hx]
          exact hd
        | false =>
          simp only [hd, Bool.false_eq_true, if_false] at h
          cases hf : fieldsL (d :: ds) with
          | nil =>
            exact absurd hf (fieldsL_ne_nil _ ⟨d, List.mem_cons_self _ _, hd⟩)
          | cons u us =>
            simp only [hf, List.cons.injEq] at h
            obtain ⟨rfl, rfl⟩ := h
            obtain ⟨pre, post, e, h1, h2, h3⟩ := fieldsL_cons_decomp (d :: ds) u us hf
            have hpre : pre = [] := by
              cases pre with
              | nil => rfl
              | cons x xs =>
                have hx : x = d := by
                  have := congrArg List.head? e
                  simp at this
                  exact this.symm
                have := h1 x (List.mem_cons_self _ _)
                rw [hx, hd] at this
                exact Bool.noConfusion this
            subst hpre
            refine ⟨[], post, ?_, by simp, h2, h3⟩
            rw [e]
            simp

theorem dropWhile_append_of_all {p : Char → Bool} :
    ∀ (a b : List Char), (∀ x ∈ a, p x = true) → (∀ c, b.head? = some c → p c = false) →
      (a ++ b).dropWhile p = b
  | [], b, _, hb => by
    cases b with
    | nil => rfl
    | cons c cs =>
      have := hb c rfl
      simp [List.dropWhile, this]
  | x :: a, b, ha, hb => by
    have hx := ha x (List.mem_cons_self _ _)
    have ih := dropWhile_append_of_all a b (fun y hy => ha y (List.mem_cons_of_mem _ hy)) hb
    simp [List.dropWhile, hx, ih]

theorem suffix_dropWhile_of_head (q : List Char)
    (hq : ∀ c, q.head? = some c → isSpace c = false) :
    ∀ a : List Char, q <:+ (a ++ q).dropWhile isSpace
  | [] => by
    cases q with
    | nil => exact List.nil_suffix
    | cons c cs =>
      have := hq c rfl
      simp [List.dropWhile, this]
  | x :: a => by
    cases hx : isSpace x with
    | true =>
      have ih := suffix_dropWhile_of_head q hq a
      simpa [List.dropWhile, hx] using ih
    | false =>
      have e : ((x :: a) ++ q).dropWhile isSpace = x :: (a ++ q) := by
        simp [List.dropWhile, hx]
      rw [e]
      exact (List.suffix_append a q).trans (List.suffix_cons x _)

/-- The first occurrence of a token that does not occur in the word `w` lies
after `w` and the blank that follows it. -/
theorem indexL_word_then (c : Char) (hc : isSpace c = true) (k X : List Char) (hne : k ≠ [])
    (hk : ∀ x ∈ k, isSpace x = false) (hX : 0 ≤ indexL k X) :
    ∀ w : List Char, ¬ k <:+: w → indexL k (w ++ c :: X) = w.length + 1 + indexL k X
  | [], hw => by
    have h0 := not_isPrefixOf_word_space c hc X [] k hne hk (fun h => hw h.isInfix)
    have := indexL_cons_of_not_isPrefixOf k c X h0 hX
    simp only [List.nil_append, List.length_nil] at this ⊢
    rw [this]
    omega
  | x :: w, hw => by
    have hw2 : ¬ k <:+: w := fun h => hw (List.infix_cons h)
    have ih := indexL_word_then c hc k X hne hk hX w hw2
    have h0 := not_isPrefixOf_word_space c hc X (x :: w) k hne hk (fun h => hw h.isInfix)
    have := indexL_cons_of_not_isPrefixOf k x (w ++ c :: X) h0 (by rw [ih]; omega)
    rw [List.cons_append, this, ih]
    simp only [List.length_cons, Nat.cast_add, Nat.cast_one]
    omega

theorem indexL_blanks (k rest : List Char) (hne : k ≠ [])
    (hk : ∀ x ∈ k, isSpace x = false) :
    ∀ sep : List Char, (∀ c ∈ sep, isSpace c = true) → indexL k (sep ++ (k ++ rest)) = sep.length
  | [], _ => by
    simpa using indexL_of_isPrefixOf k _ (List.isPrefixOf_iff_prefix.mpr (List.prefix_append k rest))
  | c :: sep, h => by
    have hc := h c (List.mem_cons_self _ _)
    have ih := indexL_blanks k rest hne hk sep (fun y hy => h y (List.mem_cons_of_mem _ hy))
    have h0 := not_isPrefixOf_word_space c hc (sep ++ (k ++ rest)) [] k hne hk
      (fun hp => hne (List.prefix_nil.mp hp))
    have := indexL_cons_of_not_isPrefixOf k c (sep ++ (k ++ rest)) h0 (by rw [ih]; omega)
    simp only [List.nil_append] at this
    rw [List.cons_append, this, ih]
    simp

/-- The first occurrence of a text that occurs in the word `w` ends inside `w`. -/
theorem indexL_inside_word (k : List Char) :
    ∀ (w X : List Char), k <:+: w →
      0 ≤ indexL k (w ++ X) ∧ (indexL k (w ++ X)).toNat + k.length ≤ w.length
  | [], X, h => by
    have hk : k = [] := List.infix_nil.mp h
    subst hk
    cases X with
    | nil => simp [indexL]
    | cons c cs => simp [indexL, List.isPrefixOf]
  | x :: w, X, h => by
    by_cases hp : k.isPrefixOf ((x :: w) ++ X) = true
    · rw [indexL_of_isPrefixOf k _ hp]
      exact ⟨le_refl _, by simpa using h.length_le⟩
    · have hp2 : k.isPrefixOf (x :: (w ++ X)) = false := by
        cases hb : k.isPrefixOf (x :: (w ++ X)) with
        | false => rfl
        | true => exact absurd hb hp
      have hnp : ¬ k <+: x :: w := by
        intro hpre
        apply hp
        exact List.isPrefixOf_iff_prefix.mpr (hpre.trans (List.prefix_append _ _))
      have hin : k <:+: w := by
        rcases List.infix_cons_iff.mp h with h1 | h1
        · exact absurd h1 hnp
        · exact h1
      obtain ⟨i0, i1⟩ := indexL_inside_word k w X hin
      have := indexL_cons_of_not_isPrefixOf k x (w ++ X) hp2 i0
      rw [List.cons_append, this]
      refine ⟨by omega, ?_⟩
      simp only [List.length_cons]
      omega

theorem trimSpaceL_ends (x : List Char) (h : trimSpaceL x ≠ []) :
    isSpace ((trimSpaceL x).head h) = false ∧ isSpace ((trimSpaceL x).getLast h) = false := by
  constructor
  · have hp : trimSpaceL x <+: x.dropWhile isSpace := List.rdropWhile_prefix _ _
    have hD : x.dropWhile isSpace ≠ [] := by
      intro e
      rw [e] at hp
      exact h (List.prefix_nil.mp hp)
    rw [hp.head h]
    exact List.head_dropWhile_not isSpace x hD
  · have := List.rdropWhile_last_not isSpace (x.dropWhile isSpace) h
    simpa [trimSpaceL] using this

theorem trimSpaceL_length_le (l : List Char) : (trimSpaceL l).length ≤ l.length := by
  unfold trimSpaceL
  exact (List.rdropWhile_prefix isSpace _).length_le.trans (List.dropWhile_suffix isSpace).length_le

/-- The trimmed line of a command with a key: the command token, blanks, the key
token, and a rest that is empty or begins with a blank; its last code point is
not a blank. -/
theorem put_line_decomp {raw p0 key : String} {rest : List String}
    (hF : partsOf raw = p0 :: key :: rest) :
    ∃ sep tail, (TrimSpace raw).data = p0.data ++ (sep ++ (key.data ++ tail)) ∧ sep ≠ [] ∧
      (∀ c ∈ sep, isSpace c = true) ∧ (∀ c, tail.head? = some c → isSpace c = true) ∧
      ∀ h, isSpace ((p0.data ++ (sep ++ (key.data ++ tail))).getLast h) = false := by
  have h0 := TrimSpace_ne_empty_of_parts hF
  have hne : trimSpaceL raw.data ≠ [] := fun e => h0 ((string_mk_eq_empty _).mpr e)
  have hf : fieldsL (trimSpaceL raw.data) = p0.data :: key.data :: rest.map String.data := by
    have := congrArg (List.map String.data) hF
    unfold partsOf Fields TrimSpace at this
    simpa [List.map_map, Function.comp_def] using this
  obtain ⟨pre, post, e, h1, h2, h3⟩ := fieldsL_cons_decomp _ _ _ hf
  obtain ⟨hhead, hlast⟩ := trimSpaceL_ends raw.data hne
  have hp0 := (partsOf_tokens raw p0 (by rw [hF]; simp))
  have hkey := (partsOf_tokens raw key (by rw [hF]; simp))
  have hpre : pre = [] := by
    cases pre with
    | nil => rfl
    | cons x xs =>
      have hx := h1 x (List.mem_cons_self _ _)
      have : (trimSpaceL raw.data).head hne = x := by
        simp only [e]
        rfl
      rw [this, hx] at hhead
      exact Bool.noConfusion hhead
  subst hpre
  obtain ⟨sep, tail, e2, g1, g2, _⟩ := fieldsL_cons_decomp _ _ _ h3
  have hsep : sep ≠ [] := by
    rintro rfl
    obtain ⟨a, t, hk⟩ := List.exists_cons_of_ne_nil hkey.1
    have := h2 a (by rw [e2, hk]; rfl)
    have ha := hkey.2 a (by rw [hk]; exact List.mem_cons_self _ _)
    rw [this] at ha
    exact Bool.noConfusion ha
  have eL : trimSpaceL raw.data = p0.data ++ (sep ++ (key.data ++ tail)) := by
    rw [e, e2]
    simp
  refine ⟨sep, tail, eL, hsep, g1, g2, ?_⟩
  intro h
  have : (p0.data ++ (sep ++ (key.data ++ tail))).getLast h = (trimSpaceL raw.data).getLast hne := by
    simp only [eL]
  rw [this]
  exact hlast

/-- The value stored by a PUT, on the code points of the trimmed line. -/
theorem put_value_list (P sep K tail : List Char) (hKne : K ≠ [])
    (hK : ∀ x ∈ K, isSpace x = false) (hsep : sep ≠ []) (hsep2 : ∀ c ∈ sep, isSpace c = true)
    (hlast : ∀ h, isSpace ((P ++ (sep ++ (K ++ tail))).getLast h) = false) :
    0 ≤ indexL K (P ++ (sep ++ (K ++ tail))) ∧
    (trimSpaceL ((P ++ (sep ++ (K ++ tail))).drop
        ((indexL K (P ++ (sep ++ (K ++ tail)))).toNat + K.length)) = trimSpaceL tail
      ↔ ¬ K <:+: P) ∧
    (K <:+: P →
      (indexL K (P ++ (sep ++ (K ++ tail)))).toNat + K.length ≤ P.length ∧
      K <:+: trimSpaceL ((P ++ (sep ++ (K ++ tail))).drop
        ((indexL K (P ++ (sep ++ (K ++ tail)))).toNat + K.length))) := by
  by_cases hin : K <:+: P
  · obtain ⟨i0, i1⟩ := indexL_inside_word K P (sep ++ (K ++ tail)) hin
    have hd : (P ++ (sep ++ (K ++ tail))).drop
        ((indexL K (P ++ (sep ++ (K ++ tail)))).toNat + K.length)
        = (P.drop ((indexL K (P ++ (sep ++ (K ++ tail)))).toNat + K.length) ++ sep)
            ++ (K ++ tail) := by
      rw [List.drop_append_of_le_length i1]
      simp
    have hq : ∀ c, (K ++ tail).head? = some c → isSpace c = false := by
      intro c hc
      obtain ⟨a, t, hk⟩ := List.exists_cons_of_ne_nil hKne
      rw [hk] at hc
      simp only [List.cons_append, List.head?_cons, Option.some.injEq] at hc
      rw [← hc]
      exact hK a (by rw [hk]; exact List.mem_cons_self _ _)
    have hsuf := suffix_dropWhile_of_head (K ++ tail) hq
      (P.drop ((indexL K (P ++ (sep ++ (K ++ tail)))).toNat + K.length) ++ sep)
    have hqne : K ++ tail ≠ [] := by simp [hKne]
    have hDne : ((P.drop ((indexL K (P ++ (sep ++ (K ++ tail)))).toNat + K.length) ++ sep)
        ++ (K ++ tail)).dropWhile isSpace ≠ [] := by
      intro e
      rw [e] at hsuf
      exact hqne (List.suffix_nil.mp hsuf)
    have hLne : P ++ (sep ++ (K ++ tail)) ≠ [] := by simp [hKne]
    have hst : trimSpaceL ((P ++ (sep ++ (K ++ tail))).drop
        ((indexL K (P ++ (sep ++ (K ++ tail)))).toNat + K.length))
        = ((P.drop ((indexL K (P ++ (sep ++ (K ++ tail)))).toNat + K.length) ++ sep)
            ++ (K ++ tail)).dropWhile isSpace := by
      rw [hd]
      unfold trimSpaceL
      rw [List.rdropWhile_eq_self_iff]
      intro hl
      have e1 := hsuf.getLast hqne
      have e2 : (K ++ tail).getLast hqne = (P ++ (sep ++ (K ++ tail))).getLast hLne := by
        have hs : K ++ tail <:+ P ++ (sep ++ (K ++ tail)) :=
          (List.suffix_append sep _).trans (List.suffix_append P _)
        exact hs.getLast hqne
      have e3 := hlast hLne
      rw [← e2, e1] at e3
      exact (Bool.not_eq_true _).mpr e3
    refine ⟨i0, ⟨fun h => ?_, fun h => absurd hin h⟩, fun _ => ⟨i1, ?_⟩⟩
    · exfalso
      have l1 := congrArg List.length h
      rw [hst] at l1
      have l2 := hsuf.length_le
      have l3 := trimSpaceL_length_le tail
      have l4 : 0 < K.length := List.length_pos.mpr hKne
      rw [List.length_append] at l2
      omega
    · rw [hst]
      exact (List.prefix_append K tail).isInfix.trans hsuf.isInfix
  · obtain ⟨c, sep2, rfl⟩ := List.exists_cons_of_ne_nil hsep
    have hc := hsep2 c (List.mem_cons_self _ _)
    have hb := indexL_blanks K tail hKne hK sep2 (fun y hy => hsep2 y (List.mem_cons_of_mem _ hy))
    have hi := indexL_word_then c hc K (sep2 ++ (K ++ tail)) hKne hK (by rw [hb]; omega) P hin
    rw [hb] at hi
    have e : P ++ (c :: sep2 ++ (K ++ tail)) = P ++ c :: (sep2 ++ (K ++ tail)) := by simp
    rw [e, hi]
    have hn : ((P.length : Int) + 1 + (sep2.length : Int)).toNat + K.length
        = (P ++ c :: (sep2 ++ K)).length := by
      simp only [List.length_append, List.length_cons]
      omega
    have hd : (P ++ c :: (sep2 ++ (K ++ tail))).drop
        (((P.length : Int) + 1 + (sep2.length : Int)).toNat + K.length) = tail := by
      rw [hn]
      have : P ++ c :: (sep2 ++ (K ++ tail)) = (P ++ c :: (sep2 ++ K)) ++ tail := by simp
      rw [this, List.drop_left' rfl]
    rw [hd]
    exact ⟨by omega, ⟨fun _ => hin, fun _ => rfl⟩, fun h => absurd h hin⟩

theorem afterKeyToken_decomp (P sep K tail : List Char) (hP : ∀ x ∈ P, isSpace x = false)
    (hKne : K ≠ []) (hK : ∀ x ∈ K, isSpace x = false) (hsep : sep ≠ [])
    (hsep2 : ∀ c ∈ sep, isSpace c = true) (htail : ∀ c, tail.head? = some c → isSpace c = true) :
    (((P ++ (sep ++ (K ++ tail))).dropWhile (fun c => !isSpace c)).dropWhile isSpace).dropWhile
      (fun c => !isSpace c) = tail := by
  have s1 : (P ++ (sep ++ (K ++ tail))).dropWhile (fun c => !isSpace c) = sep ++ (K ++ tail) := by
    apply dropWhile_append_of_all
    · intro x hx
      simp [hP x hx]
    · intro c hc
      obtain ⟨a, t, hs⟩ := List.exists_cons_of_ne_nil hsep
      rw [hs] at hc
      simp only [List.cons_append, List.head?_cons, Option.some.injEq] at hc
      rw [← hc]
      simp [hsep2 a (by rw [hs]; exact List.mem_cons_self _ _)]
  have s2 : (sep ++ (K ++ tail)).dropWhile isSpace = K ++ tail := by
    apply dropWhile_append_of_all _ _ hsep2
    intro c hc
    obtain ⟨a, t, hk⟩ := List.exists_cons_of_ne_nil hKne
    rw [hk] at hc
    simp only [List.cons_append, List.head?_cons, Option.some.injEq] at hc
    rw [← hc]
    exact hK a (by rw [hk]; exact List.mem_cons_self _ _)
  have s3 : (K ++ tail).dropWhile (fun c => !isSpace c) = tail := by
    apply dropWhile_append_of_all
    · intro x hx
      simp [hK x hx]
    · intro c hc
      simp [htail c hc]
  rw [s1, s2, s3]

/-- C17: for a PUT line with a key token, the value stored under the key is the
trimmed text after the first occurrence of the key text in the trimmed line. It
equals the trimmed text that follows the key token exactly when the key does
not occur inside the command token as typed. When the key does occur there, the
first occurrence ends inside the command token, and the stored value still
holds the key token. -/
theorem put_value_right_iff_key_outside_command_token (ord : RangeOrder) (s : KVStore)
    (raw p0 key : String) (rest : List String)
    (hF : partsOf raw = p0 :: key :: rest) (hP : ToUpper p0 = "PUT") :
    (handleLine ord s raw).store.Get key
      = some (TrimSpace (sliceFrom (TrimSpace raw)
          ((Index (TrimSpace raw) key).toNat + key.length))) ∧
    0 ≤ Index (TrimSpace raw) key ∧
    ((handleLine ord s raw).store.Get key = some (TrimSpace (afterKeyToken (TrimSpace raw)))
      ↔ ¬ key.data <:+: p0.data) ∧
    (key.data <:+: p0.data →
      (Index (TrimSpace raw) key).toNat + key.length ≤ p0.length ∧
      ∃ stored, (handleLine ord s raw).store.Get key = some stored ∧
        key.data <:+: stored.data) := by
  obtain ⟨sep, tail, eL, hsep, hsep2, htail, hlast⟩ := put_line_decomp hF
  have hp0 := partsOf_tokens raw p0 (by rw [hF]; simp)
  have hkey := partsOf_tokens raw key (by rw [hF]; simp)
  obtain ⟨i0, hiff, hin⟩ := put_value_list p0.data sep key.data tail hkey.1 hkey.2 hsep hsep2 hlast
  rw [← eL] at i0 hiff hin
  have hidx : Index (TrimSpace raw) key ≥ 0 := i0
  have hget : (handleLine ord s raw).store.Get key
      = some (TrimSpace (sliceFrom (TrimSpace raw)
          ((Index (TrimSpace raw) key).toNat + key.length))) := by
    rw [show (handleLine ord s raw).store = s.Put key _ from
      congrArg Outcome.store (handleLine_PUT hF hP ord s), Get_Put_self, if_pos hidx]
  have hafter : (TrimSpace (afterKeyToken (TrimSpace raw))).data = trimSpaceL tail := by
    have := afterKeyToken_decomp p0.data sep key.data tail hp0.2 hkey.1 hkey.2 hsep hsep2 htail
    rw [← eL] at this
    unfold TrimSpace afterKeyToken
    simp only
    exact congrArg trimSpaceL this
  refine ⟨hget, i0, ?_, fun h => ⟨(hin h).1, _, hget, (hin h).2⟩⟩
  rw [hget, ← hiff, ← hafter]
  constructor
  · intro h
    exact congrArg String.data (Option.some.inj h)
  · intro h
    exact congrArg some (String.ext h)

/-- C17 at concrete inputs: the key `a`, outside `PUT`, and the key `U`, inside. -/
theorem put_value_right_iff_key_outside_command_token_witness :
    (partsOf "PUT a  1 2\n" = "PUT" :: "a" :: ["1", "2"] ∧ ToUpper "PUT" = "PUT" ∧
      ¬ "a".data <:+: "PUT".data ∧
      (handleLine RangeOrder.asStored NewKVStore "PUT a  1 2\n").store.Get "a"
        = some (TrimSpace (afterKeyToken (TrimSpace "PUT a  1 2\n"))) ∧
      TrimSpace (afterKeyToken (TrimSpace "PUT a  1 2\n")) = "1 2") ∧
    (partsOf "PUT U v\n" = "PUT" :: "U" :: ["v"] ∧ "U".data <:+: "PUT".data ∧
      (Index (TrimSpace "PUT U v\n") "U").toNat + "U".length ≤ "PUT".length ∧
      ∃ stored, (handleLine RangeOrder.asStored NewKVStore "PUT U v\n").store.Get "U"
          = some stored ∧ "U".data <:+: stored.data) :=
  ⟨⟨by decide, by decide, by decide,
      (put_value_right_iff_key_outside_command_token RangeOrder.asStored NewKVStore
        "PUT a  1 2\n" "PUT" "a" ["1", "2"] (by decide) (by decide)).2.2.1.mpr (by decide),
      by decide⟩,
    ⟨by decide, by decide,
      (put_value_right_iff_key_outside_command_token RangeOrder.asStored NewKVStore
        "PUT U v\n" "PUT" "U" ["v"] (by decide) (by decide)).2.2.2 (by decide)⟩⟩

/-! ## The framing of replies -/

theorem readLines_line (rest : List Char) :
    ∀ body : List Char, (∀ c ∈ body, c.toNat ≠ 10) →
      readLines (body ++ Char.ofNat 10 :: rest) = (body ++ [Char.ofNat 10]) :: readLines rest
  | [], _ => by simp [readLines]
  | c :: cs, h => by
    have hc : c.toNat ≠ 10 := h c (List.mem_cons_self _ _)
    have ih := readLines_line rest cs (fun x hx => h x (List.mem_cons_of_mem _ hx))
    have e : ∀ x : List Char, readLines (c :: x) =
        if c.toNat = 10 then [c] :: readLines x
        else
          match readLines x with
          | [] => []
          | l :: ls => (c :: l) :: ls := fun _ => rfl
    rw [List.cons_append, e, if_neg hc, ih]
    rfl

theorem readLines_isLine {w : String} (h : IsLine w) (rest : List Char) :
    readLines (w.data ++ rest) = w.data :: readLines rest := by
  have e := line_data h
  have := readLines_line rest w.data.dropLast h.2
  rw [e, List.append_assoc]
  exact this

/-- The client's reader splits what the server wrote into the texts written,
when each of them is one line. -/
theorem readLines_wireBytes (more : List Char) :
    ∀ out : List String, (∀ w ∈ out, IsLine w) →
      (readLines (wireBytes out ++ more)).map String.mk = out ++ (readLines more).map String.mk
  | [], _ => rfl
  | w :: out, h => by
    have ih := readLines_wireBytes more out (fun x hx => h x (List.mem_cons_of_mem _ hx))
    have e : wireBytes (w :: out) ++ more = w.data ++ (wireBytes out ++ more) := by
      simp [wireBytes]
    rw [e, readLines_isLine (h w (List.mem_cons_self _ _)), List.map_cons, ih]
    rfl

theorem isLine_append_newline (v : String) (h : NoNewline v) : IsLine (v ++ "\n") := by
  have e : (v ++ "\n").data = v.data ++ [Char.ofNat 10] := by
    rw [String.data_append]
  unfold IsLine
  rw [e]
  constructor
  · simp
  · rw [List.dropLast_concat]
    exact h

theorem noNewline_append {a b : String} (ha : NoNewline a) (hb : NoNewline b) :
    NoNewline (a ++ b) := by
  intro c hc
  rw [String.data_append] at hc
  rcases List.mem_append.mp hc with h | h
  · exact ha c h
  · exact hb c h

theorem isLine_entryLine {e : Entry} (hk : NoNewline e.1) (hv : NoNewline e.2) :
    IsLine (entryLine e) :=
  isLine_append_newline _ (noNewline_append (noNewline_append hk (by decide)) hv)

/-- Every text the handler writes is one line, when the map is as the handler
leaves it. -/
theorem reply_texts_are_lines (ord : RangeOrder) (s : KVStore) (raw : String)
    (hs : ∀ k v, s.Get k = some v → IsToken k ∧ NoNewline v) :
    ∀ w ∈ (handleLine ord s raw).out, IsLine w := by
  intro w hw
  by_cases h0 : TrimSpace raw = ""
  · rw [handleLine_blank ord s raw h0] at hw
    simp at hw
  · obtain ⟨p0, args, _, h⟩ := handleLine_outcome_cases ord s raw h0
    rcases h with ⟨_, h⟩ | ⟨_, h⟩ | ⟨_, _, _, w2, h, hc⟩
    · rw [h] at hw
      rw [List.mem_singleton.mp hw]
      decide
    · rw [h] at hw
      split at hw
      · rw [List.mem_singleton.mp hw]
        decide
      · rcases List.mem_append.mp hw with hm | hm
        · obtain ⟨e, he, rfl⟩ := List.mem_map.mp hm
          have he2 : e ∈ s.entries := (ord.perm s.entries).mem_iff.mp he
          have hg : s.Get e.1 = some e.2 := AList.mem_lookup_iff.mpr (by cases e; exact he2)
          obtain ⟨hk, hv⟩ := hs _ _ hg
          exact isLine_entryLine (noNewline_of_token hk) hv
        · rw [List.mem_singleton.mp hm]
          decide
    · rw [h] at hw
      rw [List.mem_singleton.mp hw]
      rcases hc with hc | ⟨key, val, hg, rfl⟩
      · simp only [List.mem_cons, List.mem_singleton, List.not_mem_nil, or_false] at hc
        rcases hc with rfl | rfl | rfl | rfl | rfl | rfl <;> decide
      · exact isLine_append_newline _ (noNewline_append (by decide) (hs _ _ hg).2)

theorem mem_rdropWhile_of_not (p : Char → Bool) (x : Char) (hx : p x = false) (a : List Char) :
    ∀ b : List Char, x ∈ (a ++ x :: b).rdropWhile p := by
  intro b
  induction b using List.reverseRecOn with
  | nil =>
    rw [List.rdropWhile_concat_neg _ _ _ (by simp [hx])]
    simp
  | append_singleton b y ih =>
    have e : a ++ x :: (b ++ [y]) = (a ++ x :: b) ++ [y] := by simp
    rw [e, List.rdropWhile_concat]
    split
    · exact ih
    · simp

/-- No `key=value` line is taken for the closing line of a LIST reply. -/
theorem entryLine_not_sentinel (e : Entry) :
    TrimRight (entryLine e) "\r\n" ≠ "END" ∧ TrimRight (entryLine e) "\r\n" ≠ "EMPTY" := by
  have hd : (entryLine e).data = e.1.data ++ Char.ofNat 61 :: (e.2.data ++ [Char.ofNat 10]) := by
    unfold entryLine
    simp only [String.data_append]
    simp
  have hm : Char.ofNat 61 ∈ (TrimRight (entryLine e) "\r\n").data := by
    unfold TrimRight
    simp only
    rw [hd]
    exact mem_rdropWhile_of_not _ _ (by decide) _ _
  constructor
  · intro h
    rw [h] at hm
    exact absurd hm (by decide)
  · intro h
    rw [h] at hm
    exact absurd hm (by decide)

theorem readReply_single (cmd : Option String) (h : cmd ≠ some "LIST") (w : String)
    (rest : List String) :
    readReply cmd (w :: rest) = ⟨[TrimRight w "\r\n"], rest, false⟩ := by
  simp only [readReply, if_neg h]

theorem readReply_LIST_closing (w : String) (rest : List String)
    (h : TrimRight w "\r\n" = "END" ∨ TrimRight w "\r\n" = "EMPTY") :
    readReply (some "LIST") (w :: rest) = ⟨[TrimRight w "\r\n"], rest, false⟩ := by
  simp only [readReply, if_true, if_pos h]

theorem readReply_LIST_entries (w : String) (rest : List String)
    (h : TrimRight w "\r\n" = "END" ∨ TrimRight w "\r\n" = "EMPTY") :
    ∀ ls : List String,
      (∀ l ∈ ls, TrimRight l "\r\n" ≠ "END" ∧ TrimRight l "\r\n" ≠ "EMPTY") →
      readReply (some "LIST") (ls ++ w :: rest)
        = ⟨(ls ++ [w]).map (fun l => TrimRight l "\r\n"), rest, false⟩
  | [], _ => readReply_LIST_closing w rest h
  | l :: ls, hls => by
    have ih := readReply_LIST_entries w rest h ls (fun x hx => hls x (List.mem_cons_of_mem _ hx))
    have hl := hls l (List.mem_cons_self _ _)
    have hn : ¬ (TrimRight l "\r\n" = "END" ∨ TrimRight l "\r\n" = "EMPTY") := by
      rintro (h1 | h1)
      · exact hl.1 h1
      · exact hl.2 h1
    have e : readReply (some "LIST") (l :: (ls ++ w :: rest))
        = ⟨TrimRight l "\r\n" :: (readReply (some "LIST") (ls ++ w :: rest)).printed,
            (readReply (some "LIST") (ls ++ w :: rest)).unread,
            (readReply (some "LIST") (ls ++ w :: rest)).eof⟩ := by
      simp only [readReply, if_true, if_neg hn]
    rw [List.cons_append, e, ih]
    rfl

theorem handleConnection_line (ord : RangeOrder) (s : KVStore) (raw : String)
    (h : IsLine raw) :
    handleConnection ord s raw
      = ⟨(handleLine ord s raw).store, (handleLine ord s raw).out, .closed⟩ := by
  unfold handleConnection
  have e : readLines raw.data = [raw.data] := by
    have := readLines_isLine h []
    simpa [readLines] using this
  rw [e]
  have e2 : List.map String.mk [raw.data] = [raw] := rfl
  rw [e2]
  rcases handleLine_state ord s raw with ⟨h1, h2⟩ | ⟨_, h2⟩
  · rw [serve_cons_quit ord s raw [] h1, h2]
  · rw [serve_cons_awaiting ord s raw [] h2]
    simp [serve]

theorem TrimSpace_Fprintln_commandText {text : String} (ht : IsCommandText text) :
    TrimSpace (Fprintln text) = text := by
  obtain ⟨hne, htrim, _⟩ := ht
  have hd : text.data ≠ [] := fun e => hne (String.ext e)
  obtain ⟨hh, hl⟩ := ends_of_trimSpaceL_eq_self text.data hd (congrArg String.data htrim)
  have e : (Fprintln text).data = text.data ++ [Char.ofNat 10] := by
    unfold Fprintln
    rw [String.data_append]
  unfold TrimSpace
  rw [e, trimSpaceL_concat_space _ _ hd hh hl (by decide)]

/-- C13: the client and the server agree on the framing of replies. For a map
reachable from the empty map and a text the client sends, the client's
reply-reading loop, reading what the server wrote for the text and whatever
arrives later, prints exactly the texts written (without their newline) and
leaves everything later unread, without running into the end of the stream. The
reply is one line for every command but LIST; for LIST it is the line `EMPTY`,
or the `key=value` lines and then `END`; no `key=value` line is taken for a
closing line. -/
theorem client_reads_exactly_the_reply (ord : RangeOrder) (s : KVStore) (text more : String)
    (hs : Reachable s) (ht : IsCommandText text) :
    readReply (clientCmd text)
        ((readLines (wireBytes (handleConnection ord s (Fprintln text)).out ++ more.data)).map
          String.mk)
      = ⟨(handleConnection ord s (Fprintln text)).out.map (fun w => TrimRight w "\r\n"),
          (readLines more.data).map String.mk, false⟩ ∧
    (clientCmd text ≠ some "LIST" → (handleConnection ord s (Fprintln text)).out.length = 1) ∧
    (clientCmd text = some "LIST" →
      (handleConnection ord s (Fprintln text)).out = [Fprintln "EMPTY"] ∨
      (handleConnection ord s (Fprintln text)).out
        = (ord.iter s.entries).map entryLine ++ [Fprintln "END"]) ∧
    (∀ e : Entry,
      TrimRight (entryLine e) "\r\n" ≠ "END" ∧ TrimRight (entryLine e) "\r\n" ≠ "EMPTY") := by
  have hline : IsLine (Fprintln text) := isLine_append_newline text ht.2.2
  have hT := TrimSpace_Fprintln_commandText ht
  have h0 : TrimSpace (Fprintln text) ≠ "" := by rw [hT]; exact ht.1
  have hcmd : clientCmd text = cmdOf (Fprintln text) := by
    unfold clientCmd cmdOf partsOf
    rw [hT]
  have hout : (handleConnection ord s (Fprintln text)).out = (handleLine ord s (Fprintln text)).out := by
    rw [handleConnection_line ord s _ hline]
  have hlines := reply_texts_are_lines ord s (Fprintln text) (entries_wellformed hs)
  have hread := readLines_wireBytes more.data _ hlines
  rw [hout, hread, hcmd]
  refine ⟨?_, ?_, ?_, entryLine_not_sentinel⟩
  · obtain ⟨p0, args, hF, h⟩ := handleLine_outcome_cases ord s (Fprintln text) h0
    have hc : cmdOf (Fprintln text) = some (ToUpper p0) := by simp [cmdOf, hF]
    rw [hc]
    rcases h with ⟨hQ, h⟩ | ⟨hL, h⟩ | ⟨_, hL, _, w, h, _⟩
    · rw [h, hQ]
      exact readReply_single _ (by decide) _ _
    · rw [h, hL]
      split
      · exact readReply_LIST_closing _ _ (Or.inr (by decide))
      · rw [List.append_assoc]
        exact readReply_LIST_entries _ _ (Or.inl (by decide)) _
          (fun l hl => by
            obtain ⟨e, _, rfl⟩ := List.mem_map.mp hl
            exact entryLine_not_sentinel e)
    · rw [h]
      exact readReply_single _ (by simpa using hL) _ _
  · intro hn
    obtain ⟨p0, args, hF, h⟩ := handleLine_outcome_cases ord s (Fprintln text) h0
    have hc : cmdOf (Fprintln text) = some (ToUpper p0) := by simp [cmdOf, hF]
    rcases h with ⟨_, h⟩ | ⟨hL, _⟩ | ⟨_, _, _, w, h, _⟩
    · rw [h]; rfl
    · exact absurd (by rw [hc, hL]) hn
    · rw [h]; rfl
  · intro hl
    obtain ⟨p0, args, hF, h⟩ := handleLine_outcome_cases ord s (Fprintln text) h0
    have hc : cmdOf (Fprintln text) = some (ToUpper p0) := by simp [cmdOf, hF]
    rw [hc] at hl
    have hl2 : ToUpper p0 = "LIST" := Option.some.inj hl
    rcases h with ⟨hQ, _⟩ | ⟨_, h⟩ | ⟨_, hL, _⟩
    · rw [hQ] at hl2
      exact absurd hl2 (by decide)
    · rw [h]
      split
      · exact Or.inl rfl
      · exact Or.inr rfl
    · exact absurd hl2 hL

/-- C13 at concrete inputs: `LIST` on the map that holds `a` and `b`, and `GET a`,
each followed on the wire by a later `OK`. -/
theorem client_reads_exactly_the_reply_witness :
    Reachable (handleLine RangeOrder.asStored
        (handleLine RangeOrder.asStored NewKVStore "PUT a END\n").store "PUT b 2\n").store ∧
    IsCommandText "list" ∧ IsCommandText "GET a" ∧
    readReply (clientCmd "list")
        ((readLines (wireBytes (handleConnection RangeOrder.asStored
          (handleLine RangeOrder.asStored
            (handleLine RangeOrder.asStored NewKVStore "PUT a END\n").store "PUT b 2\n").store
          (Fprintln "list")).out ++ ("OK\n" : String).data)).map String.mk)
      = ⟨["b=2", "a=END", "END"], ["OK\n"], false⟩ ∧
    readReply (clientCmd "GET a")
        ((readLines (wireBytes (handleConnection RangeOrder.asStored
          (handleLine RangeOrder.asStored
            (handleLine RangeOrder.asStored NewKVStore "PUT a END\n").store "PUT b 2\n").store
          (Fprintln "GET a")).out ++ ("OK\n" : String).data)).map String.mk)
      = ⟨["VALUE END"], ["OK\n"], false⟩ :=
  have hr : Reachable (handleLine RangeOrder.asStored
      (handleLine RangeOrder.asStored NewKVStore "PUT a END\n").store "PUT b 2\n").store :=
    Reachable.step _ _ _ (Reachable.step _ _ _ Reachable.empty (by decide)) (by decide)
  ⟨hr, by decide, by decide,
    (client_reads_exactly_the_reply RangeOrder.asStored _ "list" "OK\n" hr (by decide)).1.trans
      (by rfl),
    (client_reads_exactly_the_reply RangeOrder.asStored _ "GET a" "OK\n" hr (by decide)).1.trans
      (by rfl)⟩

/-! ## PUT lines on distinct keys, in any order -/

theorem Get_frame_applyLines (ord : RangeOrder) (k : String) :
    ∀ (ls : List String) (s : KVStore), (∀ l ∈ ls, ¬ WritesKey l k) →
      (applyLines ord s ls).Get k = s.Get k
  | [], _, _ => rfl
  | l :: ls, s, h => by
    have h1 := Get_frame ord s k l (h l (List.mem_cons_self _ _))
    have ih := Get_frame_applyLines ord k ls (handleLine ord s l).store
      (fun x hx => h x (List.mem_cons_of_mem _ hx))
    simp only [applyLines, List.foldl_cons] at ih ⊢
    rw [ih, h1]

theorem applyLines_puts (ord : RangeOrder) :
    ∀ (ls : List String) (s : KVStore),
      (∀ l ∈ ls, cmdOf l = some "PUT" ∧ keyOf l ≠ none) → (ls.map keyOf).Nodup →
      ∀ l ∈ ls, ∃ k v, keyOf l = some k ∧ (applyLines ord s ls).Get k = some v
  | [], _, _, _, l, hl => by simp at hl
  | x :: ls, s, hput, hnd, l, hl => by
    rw [List.map_cons, List.nodup_cons] at hnd
    rcases List.mem_cons.mp hl with rfl | hl
    · obtain ⟨p0, key, rest, hF, hP⟩ := parts_of_cmd_key (hput l (List.mem_cons_self _ _)).1
        (hput l (List.mem_cons_self _ _)).2
      have hk : keyOf l = some key := by simp [keyOf, hF]
      obtain ⟨v, hst⟩ : ∃ v, (handleLine ord s l).store = s.Put key v :=
        ⟨_, congrArg Outcome.store (handleLine_PUT hF hP ord s)⟩
      have hfr := Get_frame_applyLines ord key ls (handleLine ord s l).store (by
        intro y hy hw
        apply hnd.1
        rw [hk, ← hw.2]
        exact List.mem_map_of_mem _ hy)
      refine ⟨key, v, hk, ?_⟩
      simp only [applyLines, List.foldl_cons] at hfr ⊢
      rw [hfr, hst]
      exact Get_Put_self s key v
    · have ih := applyLines_puts ord ls (handleLine ord s x).store
        (fun y hy => hput y (List.mem_cons_of_mem _ hy)) hnd.2 l hl
      simpa only [applyLines, List.foldl_cons] using ih

/-- When PUT lines on pairwise distinct keys are handled one after the other, in
any order, each is answered `OK`, and a LIST after all of them holds a
`key=value` line for the key of each. -/
theorem puts_on_distinct_keys_in_any_order (ord ord2 : RangeOrder) (s : KVStore)
    (ls order : List String)
    (hput : ∀ l ∈ ls, cmdOf l = some "PUT" ∧ keyOf l ≠ none) (hnd : (ls.map keyOf).Nodup)
    (hperm : order.Perm ls) :
    (∀ l ∈ ls, ∀ st : KVStore, (handleLine ord st l).out = [Fprintln "OK"]) ∧
    ∀ l ∈ ls, ∃ k v, keyOf l = some k ∧ (applyLines ord s order).Get k = some v ∧
      entryLine ⟨k, v⟩ ∈ (handleLine ord2 (applyLines ord s order) "LIST\n").out := by
  constructor
  · intro l hl st
    obtain ⟨p0, key, rest, hF, hP⟩ := parts_of_cmd_key (hput l hl).1 (hput l hl).2
    rw [handleLine_PUT hF hP ord st]
  · intro l hl
    have hput2 : ∀ l ∈ order, cmdOf l = some "PUT" ∧ keyOf l ≠ none :=
      fun y hy => hput y (hperm.mem_iff.mp hy)
    have hnd2 : (order.map keyOf).Nodup := (hperm.map keyOf).nodup_iff.mpr hnd
    obtain ⟨k, v, hk, hg⟩ := applyLines_puts ord order s hput2 hnd2 l (hperm.mem_iff.mpr hl)
    refine ⟨k, v, hk, hg, ?_⟩
    have hm : entryLine ⟨k, v⟩ ∈ listLines (handleLine ord2 (applyLines ord s order) "LIST\n").out :=
      (mem_listLines_LIST ord2 _ _).mpr ⟨⟨k, v⟩, AList.mem_lookup_iff.mp hg, rfl⟩
    exact List.mem_of_mem_dropLast hm

/-- The same at a concrete input: three PUT lines, handled in another order. -/
theorem puts_on_distinct_keys_in_any_order_witness :
    (∀ l ∈ ["PUT a 1\n", "PUT b 2\n", "PUT c 3\n"], cmdOf l = some "PUT" ∧ keyOf l ≠ none) ∧
    (["PUT a 1\n", "PUT b 2\n", "PUT c 3\n"].map keyOf).Nodup ∧
    ∀ l ∈ ["PUT a 1\n", "PUT b 2\n", "PUT c 3\n"], ∃ k v, keyOf l = some k ∧
      (applyLines RangeOrder.asStored NewKVStore ["PUT c 3\n", "PUT a 1\n", "PUT b 2\n"]).Get k
        = some v ∧
      entryLine ⟨k, v⟩ ∈ (handleLine RangeOrder.backwards
        (applyLines RangeOrder.asStored NewKVStore ["PUT c 3\n", "PUT a 1\n", "PUT b 2\n"])
        "LIST\n").out :=
  have hperm : ["PUT c 3\n", "PUT a 1\n", "PUT b 2\n"].Perm ["PUT a 1\n", "PUT b 2\n", "PUT c 3\n"] := by
    decide
  ⟨by decide, by decide,
    (puts_on_distinct_keys_in_any_order RangeOrder.asStored RangeOrder.backwards NewKVStore
      ["PUT a 1\n", "PUT b 2\n", "PUT c 3\n"] ["PUT c 3\n", "PUT a 1\n", "PUT b 2\n"]
      (by decide) (by decide) hperm).2⟩

/-! ## Reachable maps and connections -/

theorem readLines_lines : ∀ (input : List Char), ∀ l ∈ readLines input,
    l.getLast? = some (Char.ofNat 10) ∧ ∀ c ∈ l.dropLast, c.toNat ≠ 10
  | [], l, hl => by simp [readLines] at hl
  | c :: cs, l, hl => by
    have ih := readLines_lines cs
    unfold readLines at hl
    by_cases hc : c.toNat = 10
    · simp only [hc, if_true, List.mem_cons] at hl
      rcases hl with rfl | hl
      · have : c = Char.ofNat 10 := by
          apply Char.ext
          apply UInt32.ext
          exact hc
        subst this
        exact ⟨rfl, by simp⟩
      · exact ih l hl
    · simp only [hc, if_false] at hl
      cases hr : readLines cs with
      | nil => simp [hr] at hl
      | cons u us =>
        simp only [hr, List.mem_cons] at hl
        rcases hl with rfl | hl
        · obtain ⟨h1, h2⟩ := ih u (by rw [hr]; exact List.mem_cons_self _ _)
          have hu : u ≠ [] := by
            rintro rfl
            simp at h1
          obtain ⟨a, t, rfl⟩ := List.exists_cons_of_ne_nil hu
          refine ⟨by rw [List.getLast?_cons_cons]; exact h1, ?_⟩
          intro x hx
          rw [List.dropLast_cons₂] at hx
          rcases List.mem_cons.mp hx with rfl | hx
          · exact hc
          · exact h2 x hx
        · exact ih l (by rw [hr]; exact List.mem_cons_of_mem _ hl)

theorem reachable_serve (ord : RangeOrder) :
    ∀ (ls : List String) (s : KVStore), Reachable s → (∀ l ∈ ls, IsLine l) →
      Reachable (serve ord s ls).store
  | [], _, hs, _ => hs
  | l :: ls, s, hs, hl => by
    have h1 : Reachable (handleLine ord s l).store :=
      Reachable.step ord s l hs (hl l (List.mem_cons_self _ _))
    rcases handleLine_state ord s l with ⟨h, _⟩ | ⟨_, h⟩
    · rw [serve_cons_quit ord s l ls h]
      exact hs
    · rw [serve_cons_awaiting ord s l ls h]
      exact reachable_serve ord ls _ h1 (fun x hx => hl x (List.mem_cons_of_mem _ hx))

/-- The map a connection leaves, whatever its input, is reachable when the map
it started on is. -/
theorem reachable_handleConnection (ord : RangeOrder) (s : KVStore) (input : String)
    (hs : Reachable s) : Reachable (handleConnection ord s input).store := by
  unfold handleConnection
  apply reachable_serve ord _ s hs
  intro l hl
  obtain ⟨u, hu, rfl⟩ := List.mem_map.mp hl
  exact readLines_lines input.data u hu

/-! ## The letter case of the command word: what does not depend on it -/

/-- Two lines with the same tokens but for the letter case of the first: the
handler writes the same texts for both and is in the same state after them,
and it leaves the same map unless the command is PUT. -/
theorem reply_independent_of_command_case (ord : RangeOrder) (s : KVStore)
    (raw raw2 p0 p02 : String) (args : List String)
    (hF : partsOf raw = p0 :: args) (hF2 : partsOf raw2 = p02 :: args)
    (hU : ToUpper p02 = ToUpper p0) :
    (handleLine ord s raw2).out = (handleLine ord s raw).out ∧
    (handleLine ord s raw2).state = (handleLine ord s raw).state ∧
    (ToUpper p0 ≠ "PUT" → handleLine ord s raw2 = handleLine ord s raw) := by
  have h0 := TrimSpace_ne_empty_of_parts hF
  have h02 := TrimSpace_ne_empty_of_parts hF2
  have g : Fields (TrimSpace raw) = p0 :: args := hF
  have g2 : Fields (TrimSpace raw2) = p02 :: args := hF2
  by_cases hP : ToUpper p0 = "PUT"
  · have hP2 : ToUpper p02 = "PUT" := hU.trans hP
    refine ⟨?_, ?_, fun h => absurd hP h⟩
    · rcases args with _ | ⟨key, rest⟩
      · simp only [handleLine, h0, h02, g, g2, hP, hP2, if_true, if_false]
      · rw [handleLine_PUT hF hP ord s, handleLine_PUT hF2 hP2 ord s]
    · rcases args with _ | ⟨key, rest⟩
      · simp only [handleLine, h0, h02, g, g2, hP, hP2, if_true, if_false]
      · rw [handleLine_PUT hF hP ord s, handleLine_PUT hF2 hP2 ord s]
  · have e : handleLine ord s raw2 = handleLine ord s raw := by
      have hP2 : ¬ ToUpper p02 = "PUT" := by rw [hU]; exact hP
      simp only [handleLine, h0, h02, g, g2, if_false, if_neg hP, if_neg hP2, hU]
    exact ⟨by rw [e], by rw [e], fun _ => e⟩

end KV
